import Mathlib

/-!
# Verification of the id3 decision-tree learner

Shallow embedding of the `id3` Go package (files `views.go`, `learn.go`,
`decisions.go`) and proofs about it.

Modelling conventions:

* Views are modelled functionally: a `GoView` is the ordered column-name list
  together with the ordered data rows the view yields in one full pass
  (`First` followed by `Next` until `nil`).  `Select` filters the rows,
  `Drop` blanks one column name; both leave row storage untouched, exactly
  as the delegating Go views do.  The mutable shared cursor of the Go views
  is modelled separately and faithfully by `Chain` / `chainFirst` /
  `chainNextF` below.
* Go `panic` (the `find` helper, indexing a `nil` row) is modelled by
  `Option`: `none` means the operation panics.  Row field access `row[i]`
  is modelled totally with `List.getD` (Go would panic on a ragged row;
  every view read from CSV is rectangular).
* Go `float64` arithmetic is idealised: empirical probabilities are exact
  rationals (`ℚ`), entropies are real numbers (`ℝ`, base-2 logarithm).
* `Likelihood` ranges over a Go map, whose iteration order is randomized,
  and then sorts with the unstable `sort.Slice`.  `likelihoodOrd` is
  parametrized by the enumeration order the map range produces (any
  permutation of the distinct values); the canonical `Likelihood` uses
  first-seen order.
* `Learn` recurses on views; the embedding `Learn` takes explicit fuel.
  `none` for every fuel means the Go function panics or diverges;
  a `some` result independent of sufficiently large fuel is the value the
  Go function returns.
-/

namespace ID3

/-- Function `find` from `views.go`: first index of `x` in `slice`; the Go version
panics when `x` is absent, modelled by `none`. -/
def find (slice : List String) (x : String) : Option Nat :=
  slice.findIdx? (fun str => str = x)

/-- A view, modelled extensionally: the column names it reports and the rows
one full iteration pass yields, in order. -/
structure GoView where
  cols : List String
  rows : List (List String)
  deriving DecidableEq

/-- Method `View.Columns`. -/
def GoView.Columns (v : GoView) : List String := v.cols

/-- The `selectView` composition (`View.Select`): keep the rows whose field at
the column's first index equals `value`.  Panics (`none`) when the column
is not found, as `find` does in Go. -/
def GoView.Select (v : GoView) (column value : String) : Option GoView :=
  (find v.cols column).map
    (fun i => ⟨v.cols, v.rows.filter (fun r => r.getD i "" == value)⟩)

/-- The `dropView` composition (`View.Drop`): blank the column's name, keep the
rows untouched. -/
def GoView.Drop (v : GoView) (column : String) : Option GoView :=
  (find v.cols column).map (fun i => ⟨v.cols.set i "", v.rows⟩)

/-- Struct `Distinct` from `learn.go`; the float64 probability is idealised as an
exact rational. -/
structure Distinct where
  Value : String
  Probability : ℚ
  deriving DecidableEq

/-- Comparator used by the `sort.Slice` call in `Likelihood`: decreasing
probability. -/
def probGE (a b : Distinct) : Prop := b.Probability ≤ a.Probability

instance : DecidableRel probGE :=
  fun a b => inferInstanceAs (Decidable (b.Probability ≤ a.Probability))

instance : IsTotal Distinct probGE :=
  ⟨fun a b => le_total b.Probability a.Probability⟩

instance : IsTrans Distinct probGE :=
  ⟨fun _ _ _ h h' => le_trans h' h⟩

/-- The string values of column `i` over the rows, in row order. -/
def colVals (rows : List (List String)) (i : Nat) : List String :=
  rows.map (fun r => r.getD i "")

/-- Number of rows whose field `i` equals `v`. -/
def cnt (rows : List (List String)) (i : Nat) (v : String) : Nat :=
  rows.countP (fun r => r.getD i "" == v)

/-- The body of `Likelihood` once the column index is known, parametrized by
the order `order` in which the Go map range enumerates the distinct values
(Go randomizes it; any permutation of the distinct values can occur): tally
each distinct value, divide by the row total, sort by decreasing
probability. -/
def likelihoodOrd (rows : List (List String)) (i : Nat) (order : List String) :
    List Distinct :=
  List.insertionSort probGE
    (order.map (fun v => ⟨v, (cnt rows i v : ℚ) / (rows.length : ℚ)⟩))

/-- Canonical `Likelihood` body: the map enumeration order taken as
first-seen order of the distinct values. -/
def likelihoodAt (rows : List (List String)) (i : Nat) : List Distinct :=
  likelihoodOrd rows i (colVals rows i).dedup

/-- Function `Likelihood` from `learn.go`: find the column (panic if absent), then
tally, divide and sort. -/
def Likelihood (view : GoView) (column : String) : Option (List Distinct) :=
  (find view.cols column).map (likelihoodAt view.rows)

/-- Function `Entropy` from `learn.go`: the Shannon term, with the edge cases of
probability zero and one sent to zero. -/
noncomputable def Entropy (p : ℝ) : ℝ :=
  if p = 0 ∨ p = 1 then 0 else -p * Real.logb 2 p

/-- The body of `TotalEntropy` once the class column index is known: sum of
`Entropy` over the likelihood distribution. -/
noncomputable def totalEntropyAt (rows : List (List String)) (ci : Nat) : ℝ :=
  ((likelihoodAt rows ci).map (fun d => Entropy (d.Probability : ℝ))).sum

/-- Function `TotalEntropy` from `learn.go`. -/
noncomputable def TotalEntropy (view : GoView) (cls : String) : Option ℝ :=
  (find view.cols cls).map (totalEntropyAt view.rows)

/-- The rows of `view.Select(column i, value v)` once the index is known. -/
def selectAt (rows : List (List String)) (i : Nat) (v : String) :
    List (List String) :=
  rows.filter (fun r => r.getD i "" == v)

/-- The body of `AverageEntropy` once both column indices are known:
probability-weighted class entropy of each partition induced by the
attribute. -/
noncomputable def averageEntropyAt (rows : List (List String)) (ai ci : Nat) :
    ℝ :=
  ((likelihoodAt rows ai).map
    (fun d => (d.Probability : ℝ) * totalEntropyAt (selectAt rows ai d.Value) ci)).sum

/-- Function `AverageEntropy` from `learn.go`: `find` validates the class column
(panic if absent), then the attribute column is located by `Likelihood`
and by each inner `Select`; all of them use the same first index. -/
noncomputable def AverageEntropy (view : GoView) (attrib cls : String) :
    Option ℝ := do
  let ci ← find view.cols cls
  let ai ← find view.cols attrib
  pure (averageEntropyAt view.rows ai ci)

mutual

/-- Struct `Decision` from `decisions.go`. -/
inductive Decision : Type where
  | node (Column : String) (Cases : List Case) : Decision

/-- Struct `Case` from `decisions.go`: a distinct value with either a decided class
value (`Class ≠ ""`) or a subsequent decision (`Decide`, nil modelled as
`none`). -/
inductive Case : Type where
  | mk (Value : String) (Class : String) (Decide : Option Decision) : Case

end

/-- The `Column` field. -/
def Decision.Column : Decision → String
  | .node c _ => c

/-- The `Cases` field. -/
def Decision.Cases : Decision → List Case
  | .node _ cs => cs

/-- The `Value` field. -/
def Case.Value : Case → String
  | .mk v _ _ => v

/-- The `Class` field. -/
def Case.Class : Case → String
  | .mk _ c _ => c

/-- The `Decide` field. -/
def Case.Decide : Case → Option Decision
  | .mk _ _ d => d

/-- The failure modes of `Decision.decide`: `find` panics when the decision
column is missing from the header; the function panics with
"id3: no rule for column" when no case matches; dereferencing a nil
`Decide` pointer is a runtime panic. -/
inductive DecideError : Type where
  | colNotFound (col : String)
  | noRule (col : String)
  | nilDecide
  deriving DecidableEq

mutual

/-- Method `Decision.decide` from `decisions.go`: locate the decision column in the
header row `data[0]`, read the row's value there, scan the cases in order
for a matching value; a non-empty `Class` is a leaf answer, otherwise
recurse into the nested decision. -/
def decideD (data : List (List String)) (ix : Nat) : Decision → Except DecideError String
  | .node col cs =>
    match find (data.getD 0 []) col with
    | none => .error (.colNotFound col)
    | some i => decideCases data ix ((data.getD ix []).getD i "") col cs

/-- The case scan inside `Decision.decide`. -/
def decideCases (data : List (List String)) (ix : Nat) (value : String)
    (col : String) : List Case → Except DecideError String
  | [] => .error (.noRule col)
  | .mk v cl dec :: rest =>
    if v = value then
      if cl ≠ "" then .ok cl
      else
        match dec with
        | some d => decideD data ix d
        | none => .error .nilDecide
    else decideCases data ix value col rest

end

/-- Method `Decision.Decide` from `decisions.go`: classify every data row after the
header row, in row order. -/
def Decision.DecideAll (d : Decision) (data : List (List String)) :
    List (Except DecideError String) :=
  ((List.range data.length).drop 1).map (fun i => decideD data i d)

/-- Modelled from the spec: the serialized tree.  The exact textual JSON
encoding produced by Go's `encoding/json` is an external collaborator; the
spec requires only a structured serialization with fields
`Column`, `Cases` and, per case, `Value`, `Class`, `Decide`, applied
recursively.  We model that structure as a JSON value tree. -/
inductive Json : Type where
  | null : Json
  | str (s : String) : Json
  | arr (elems : List Json) : Json
  | obj (fields : List (String × Json)) : Json

mutual

/-- Modelled from the spec: `json.Marshal` on a `Decision`.  Field names are
the exported Go field names; a nil `Cases` slice and a nil `Decide` pointer
marshal to JSON null. -/
def encodeD : Decision → Json
  | .node col cs => .obj [("Column", .str col), ("Cases", encodeCasesTop cs)]

/-- Encoding of the `Cases` slice: nil marshals to null, otherwise an
array. -/
def encodeCasesTop : List Case → Json
  | [] => .null
  | c :: rest => .arr (encodeCase c :: encodeCaseList rest)

/-- Elementwise encoding of a case list. -/
def encodeCaseList : List Case → List Json
  | [] => []
  | c :: rest => encodeCase c :: encodeCaseList rest

/-- Encoding of one `Case`. -/
def encodeCase : Case → Json
  | .mk v cl dec => .obj [("Value", .str v), ("Class", .str cl), ("Decide", encodeOptD dec)]

/-- Encoding of the `Decide` pointer: nil marshals to null. -/
def encodeOptD : Option Decision → Json
  | none => .null
  | some d => encodeD d

end

/-- First binding for a key in a JSON object. -/
def lookupField : List (String × Json) → String → Option Json
  | [], _ => none
  | (k, j) :: rest, key => if k = key then some j else lookupField rest key

mutual

/-- Modelled from the spec: `json.Unmarshal` into a `Decision`.  No
structural validation is performed beyond JSON types: any `Class` and
`Decide` combination is accepted.  Fields are scanned in order; absent
fields keep the Go zero values. -/
def decodeD : Json → Option Decision
  | .obj fields => decodeNodeFields fields "" (some [])
  | _ => none

/-- Field scan for a `Decision` object, accumulating the column name and the
decoded cases (Go zero values `""` and nil until the fields are seen); a
JSON value of the wrong type for a typed field is a decode error, JSON null
keeps the zero value. -/
def decodeNodeFields : List (String × Json) → String → Option (List Case) →
    Option Decision
  | [], col, cs => cs.bind (fun cs => some (.node col cs))
  | (k, Json.str s) :: rest, col, cs =>
    if k = "Column" then decodeNodeFields rest s cs
    else if k = "Cases" then none
    else decodeNodeFields rest col cs
  | (_, Json.null) :: rest, col, cs => decodeNodeFields rest col cs
  | (k, Json.arr xs) :: rest, col, cs =>
    if k = "Column" then none
    else if k = "Cases" then decodeNodeFields rest col (decodeCaseList xs)
    else decodeNodeFields rest col cs
  | (k, Json.obj _) :: rest, col, cs =>
    if k = "Column" ∨ k = "Cases" then none
    else decodeNodeFields rest col cs

/-- Decoding of a JSON array of cases. -/
def decodeCaseList : List Json → Option (List Case)
  | [] => some []
  | x :: rest =>
    (decodeCase x).bind (fun c =>
      (decodeCaseList rest).bind (fun cs => some (c :: cs)))

/-- Decoding of one case object. -/
def decodeCase : Json → Option Case
  | .obj fields => decodeCaseFields fields "" "" (some none)
  | _ => none

/-- Field scan for a `Case` object; for the `Decide` field a non-null value
is decoded as a nested decision (a non-object fails inside `decodeD`). -/
def decodeCaseFields : List (String × Json) → String → String →
    Option (Option Decision) → Option Case
  | [], v, cl, dec => dec.bind (fun dec => some (.mk v cl dec))
  | (k, Json.str s) :: rest, v, cl, dec =>
    if k = "Value" then decodeCaseFields rest s cl dec
    else if k = "Class" then decodeCaseFields rest v s dec
    else if k = "Decide" then
      decodeCaseFields rest v cl
        ((decodeD (Json.str s)).bind (fun d => some (some d)))
    else decodeCaseFields rest v cl dec
  | (k, Json.null) :: rest, v, cl, dec =>
    if k = "Decide" then decodeCaseFields rest v cl (some none)
    else decodeCaseFields rest v cl dec
  | (k, Json.arr xs) :: rest, v, cl, dec =>
    if k = "Value" ∨ k = "Class" then none
    else if k = "Decide" then
      decodeCaseFields rest v cl
        ((decodeD (Json.arr xs)).bind (fun d => some (some d)))
    else decodeCaseFields rest v cl dec
  | (k, Json.obj fs) :: rest, v, cl, dec =>
    if k = "Value" ∨ k = "Class" then none
    else if k = "Decide" then
      decodeCaseFields rest v cl
        ((decodeD (Json.obj fs)).bind (fun d => some (some d)))
    else decodeCaseFields rest v cl dec

end

/-- Method `Decision.ToJSON` from `decisions.go`: the indent flag only changes the
whitespace of the byte encoding, not the serialized structure. -/
def ToJSON (d : Decision) (indent : Bool) : Json :=
  match indent with
  | false => encodeD d
  | true => encodeD d

/-- Function `FromJSON` from `decisions.go`: decode or report an error (`none`). -/
def FromJSON (j : Json) : Option Decision := decodeD j

/-- The column scan of `Learn` that selects the split column: running
maximum starts at the sentinel `(-1, "")`; columns equal to the class or
hidden (blank name) are skipped; the running maximum is replaced only on
strictly greater gain.  The Go code stores each gain in a slice cell that
is written and read only inside the same iteration; the slice is elided. -/
noncomputable def gainFold (view : GoView) (cls : String) (h : ℝ) :
    Option (ℝ × String) :=
  view.cols.foldlM
    (fun acc name =>
      if name = cls ∨ name = "" then pure acc
      else do
        let ae ← AverageEntropy view name cls
        pure (if h - ae > acc.1 then (h - ae, name) else acc))
    ((-1 : ℝ), "")

/-- The loop body of `Learn` for one distinct value of the chosen column
(`learnRec` stands for the recursive call on the dropped sub-view): build
the sub-view; if its class entropy is exactly zero the case is terminal and
holds the class value of the sub-view's first row (`First`/`Next`, a nil row
is an indexing panic), otherwise recurse on the sub-view with the decided
column dropped. -/
noncomputable def learnCase (cls : String) (learnRec : GoView → Option Decision)
    (view : GoView) (maxColumn : String) (dist : Distinct) : Option Case := do
  let subview ← view.Select maxColumn dist.Value
  let subh ← TotalEntropy subview cls
  if subh = 0 then do
    let row ← subview.rows.head?
    let ci ← find subview.cols cls
    pure (Case.mk dist.Value (row.getD ci "") none)
  else do
    let dropped ← subview.Drop maxColumn
    let dd ← learnRec dropped
    pure (Case.mk dist.Value "" (some dd))

/-- Function `Learn` from `learn.go`, with explicit recursion fuel (the Go function
recurses on the sub-view with the decided column dropped; `none` for every
fuel means the Go call panics or diverges).  Total entropy of the view,
gain-maximising column scan, then one case per distinct value of the chosen
column in decreasing-probability order. -/
noncomputable def Learn (cls : String) : Nat → GoView → Option Decision
  | 0, _ => none
  | fuel + 1, view => do
    let h ← TotalEntropy view cls
    let sel ← gainFold view cls h
    let cases ← (← Likelihood view sel.2).mapM
      (learnCase cls (Learn cls fuel) view sel.2)
    pure (Decision.node sel.2 cases)

/-- The canonical probability of a value in column `i`. -/
def probOf (rows : List (List String)) (i : Nat) (v : String) : ℚ :=
  (cnt rows i v : ℚ) / (rows.length : ℚ)

/-- The pure content of the `gainFold` scan: fold the
skip-or-strictly-improve step over the column names. -/
noncomputable def argmaxFold (skip : String → Prop) [DecidablePred skip]
    (f : String → ℝ) (l : List String) (acc : ℝ × String) : ℝ × String :=
  l.foldl
    (fun acc name =>
      if skip name then acc
      else if f name > acc.1 then (f name, name) else acc)
    acc

/-- The information gain `Learn` computes for a named column (meaningful when
the class column and the named column are present). -/
noncomputable def gainOf (view : GoView) (cls : String) (name : String) : ℝ :=
  totalEntropyAt view.rows ((find view.cols cls).getD 0)
    - averageEntropyAt view.rows ((find view.cols name).getD 0)
        ((find view.cols cls).getD 0)

/-- Specification predicate for the split-column choice: `m` is not skipped,
its gain is maximal among the non-skipped columns, and every non-skipped
column strictly before some occurrence of `m` in column order has strictly
smaller gain (so `m` is the first maximiser). -/
def IsFirstMaxGain (view : GoView) (cls : String) (m : String) : Prop :=
  ¬ (m = cls ∨ m = "")
    ∧ (∃ l1 l2, view.cols = l1 ++ m :: l2
        ∧ ∀ n ∈ l1, ¬ (n = cls ∨ n = "") → gainOf view cls n < gainOf view cls m)
    ∧ ∀ n ∈ view.cols, ¬ (n = cls ∨ n = "") → gainOf view cls n ≤ gainOf view cls m

/-- Number of eligible (visible, non-class) column positions. -/
def eligCount (view : GoView) (cls : String) : Nat :=
  (view.cols.filter (fun n => !(n == cls || n == ""))).length

/-- The consistency hypothesis of the learning claims: no two rows agree on
every visible non-class attribute while differing in the class column. -/
def Consistent (view : GoView) (cls : String) : Prop :=
  ∀ ci, find view.cols cls = some ci →
    ∀ r1 ∈ view.rows, ∀ r2 ∈ view.rows,
      (∀ i, i < view.cols.length → view.cols.getD i "" ≠ "" →
        view.cols.getD i "" ≠ cls → r1.getD i "" = r2.getD i "") →
      r1.getD ci "" = r2.getD ci ""

/-- The cursor model: a chain of delegating views over one base view.  The
base view owns the data (header row at index 0) and the single mutable
cursor `next`; `sel` and `drop` wrap a parent without any cursor state of
their own, exactly like `selectView` and `dropView`. -/
inductive Chain : Type where
  | base (data : List (List String)) : Chain
  | sel (parent : Chain) (col : Nat) (val : String) : Chain
  | drop (parent : Chain) (idx : Nat) : Chain

/-- Number of rows (header included) of the base data under a chain. -/
def Chain.rootLen : Chain → Nat
  | .base data => data.length
  | .sel p _ _ => p.rootLen
  | .drop p _ => p.rootLen

/-- Operation `First`: every view delegates to its parent; the base view sets the
shared cursor to 1 (just before the first data row). -/
def chainFirst : Chain → Nat → Nat
  | .base _, _ => 1
  | .sel p _ _, s => chainFirst p s
  | .drop p _, s => chainFirst p s

/-- Operation `Next`: the base view skips the header, stops at the end, otherwise
returns the row under the cursor and advances it; a drop view passes the
parent's row through; a select view pulls rows from the parent until one
matches.  The state is the base cursor; `fuel` bounds the total work of the
delegation and of the select loop (any fuel at least chain depth plus base
length is enough, since the cursor strictly increases). -/
def chainNextF : Nat → Chain → Nat → Option (List String) × Nat
  | _, .base data, s =>
    let s1 := if s = 0 then 1 else s
    if s1 = data.length then (none, s1) else (some (data.getD s1 []), s1 + 1)
  | 0, .drop _ _, s => (none, s)
  | 0, .sel _ _ _, s => (none, s)
  | fuel + 1, .drop p _, s => chainNextF fuel p s
  | fuel + 1, .sel p col val, s =>
    match chainNextF fuel p s with
    | (none, s2) => (none, s2)
    | (some row, s2) =>
      if row.getD col "" == val then (some row, s2)
      else chainNextF fuel (.sel p col val) s2

/-! ## Lemmas about `find` -/

theorem find_some_iff {l : List String} {x : String} {i : Nat} :
    find l x = some i ↔
      ∃ h : i < l.length, l[i] = x ∧ ∀ j (hj : j < i), l.get ⟨j, lt_trans hj h⟩ ≠ x := by
  simp [find, List.findIdx?_eq_some_iff_getElem]

theorem find_lt {l : List String} {x : String} {i : Nat}
    (h : find l x = some i) : i < l.length :=
  (find_some_iff.mp h).1

theorem getD_of_lt (l : List String) (d : String) {i : Nat} (h : i < l.length) :
    l.getD i d = l[i] := by
  simp [List.getD, List.getElem?_eq_getElem h]

theorem find_getD {l : List String} {x : String} {i : Nat}
    (h : find l x = some i) : l.getD i "" = x := by
  obtain ⟨hlt, hx, -⟩ := find_some_iff.mp h
  rw [getD_of_lt l "" hlt, hx]

theorem find_first_getD {l : List String} {x : String} {i : Nat}
    (h : find l x = some i) : ∀ j, j < i → l.getD j "" ≠ x := by
  obtain ⟨hlt, -, hall⟩ := find_some_iff.mp h
  intro j hj
  rw [getD_of_lt l "" (lt_trans hj hlt)]
  exact hall j hj

theorem find_none_iff {l : List String} {x : String} :
    find l x = none ↔ x ∉ l := by
  rw [find, List.findIdx?_eq_none_iff]
  constructor
  · intro h hx
    have := h x hx
    simp at this
  · intro h a ha
    simp only [decide_eq_false_iff_not]
    rintro rfl
    exact h ha

theorem find_some_of_mem {l : List String} {x : String} (h : x ∈ l) :
    ∃ i, find l x = some i := by
  cases hf : find l x with
  | none => exact absurd h (find_none_iff.mp hf)
  | some i => exact ⟨i, rfl⟩

theorem find_set_of_ne {l : List String} {j : Nat} {y x : String}
    (hyx : y ≠ x) (hj : l.getD j "" ≠ x) : find (l.set j y) x = find l x := by
  cases hf : find l x with
  | none =>
    rw [find_none_iff] at hf ⊢
    intro hmem
    rcases List.mem_or_eq_of_mem_set hmem with h | h
    · exact hf h
    · exact hyx h.symm
  | some i =>
    obtain ⟨hlt, hx, hall⟩ := find_some_iff.mp hf
    have hij : i ≠ j := by
      intro h
      exact hj (by rw [← h, getD_of_lt l "" hlt, hx])
    rw [find_some_iff]
    refine ⟨by simpa using hlt, ?_, ?_⟩
    · rw [List.getElem_set_ne (by omega)]
      exact hx
    · intro k hk
      by_cases hkj : k = j
      · subst hkj
        simp only [List.get_eq_getElem]
        rw [List.getElem_set_self (by simpa using lt_trans hk hlt)]
        exact hyx
      · simp only [List.get_eq_getElem]
        rw [List.getElem_set_ne (by omega)]
        have := hall k hk
        simpa [List.get_eq_getElem] using this

/-! ## Sums of nonnegative real lists -/

theorem list_sum_eq_zero_iff {l : List ℝ} (h : ∀ x ∈ l, 0 ≤ x) :
    l.sum = 0 ↔ ∀ x ∈ l, x = 0 := by
  induction l with
  | nil => simp
  | cons a t ih =>
    have ha := h a (by simp)
    have ht : ∀ x ∈ t, 0 ≤ x := fun x hx => h x (by simp [hx])
    have hts : 0 ≤ t.sum := List.sum_nonneg ht
    rw [List.sum_cons]
    constructor
    · intro h0
      have haz : a = 0 := by linarith [(List.sum_nonneg ht)]
      have htz : t.sum = 0 := by linarith
      intro x hx
      rcases List.mem_cons.mp hx with rfl | hx
      · exact haz
      · exact ((ih ht).mp htz) x hx
    · intro hall
      have : t.sum = 0 := (ih ht).mpr (fun x hx => hall x (by simp [hx]))
      rw [this, hall a (by simp)]
      simp

theorem count_pair_le_length {l : List String} {a b : String} (hab : a ≠ b) :
    l.count a + l.count b ≤ l.length := by
  induction l with
  | nil => simp
  | cons x t ih =>
    have hcc : ∀ c : String, (x :: t).count c = t.count c + if c = x then 1 else 0 := by
      intro c
      rcases eq_or_ne c x with rfl | h
      · simp [List.count_cons]
      · simp [List.count_cons, h, Ne.symm h]
    rw [hcc a, hcc b, List.length_cons]
    by_cases hxa : a = x
    · rw [if_pos hxa, if_neg (fun h => hab (hxa.trans h.symm))]
      omega
    · rw [if_neg hxa]
      by_cases hxb : b = x
      · rw [if_pos hxb]
        omega
      · rw [if_neg hxb]
        omega

/-! ## Likelihood sums -/

theorem cnt_colVals (rows : List (List String)) (i : Nat) (v : String) :
    (colVals rows i).count v = cnt rows i v := by
  simp [colVals, cnt, List.count_eq_countP, List.countP_map, Function.comp_def]

theorem sum_map_likelihoodOrd {M : Type} [AddCommMonoid M]
    (rows : List (List String)) (i : Nat) (order : List String)
    (f : Distinct → M) :
    ((likelihoodOrd rows i order).map f).sum
      = (order.map (fun v => f ⟨v, probOf rows i v⟩)).sum := by
  unfold likelihoodOrd
  have hp := (List.perm_insertionSort probGE
    (order.map (fun v => (⟨v, (cnt rows i v : ℚ) / (rows.length : ℚ)⟩ : Distinct)))).map f
  rw [hp.sum_eq, List.map_map]
  rfl

theorem dedup_toFinset_eq (l : List String) : l.dedup.toFinset = l.toFinset := by
  ext a
  simp [List.mem_toFinset, List.mem_dedup]

theorem sum_map_likelihoodAt {M : Type} [AddCommMonoid M]
    (rows : List (List String)) (i : Nat) (f : Distinct → M) :
    ((likelihoodAt rows i).map f).sum
      = ∑ v in (colVals rows i).toFinset, f ⟨v, probOf rows i v⟩ := by
  unfold likelihoodAt
  rw [sum_map_likelihoodOrd]
  rw [← List.sum_toFinset _ (List.nodup_dedup _), dedup_toFinset_eq]

/-! ## Entropy lemmas -/

theorem Entropy_eq (p : ℝ) : Entropy p = Real.negMulLog p / Real.log 2 := by
  unfold Entropy
  by_cases h : p = 0 ∨ p = 1
  · rw [if_pos h]
    rcases h with rfl | rfl <;> simp [Real.negMulLog]
  · rw [if_neg h, Real.negMulLog, Real.logb]
    ring

theorem Entropy_zero : Entropy 0 = 0 := by
  simp [Entropy]

theorem Entropy_one : Entropy 1 = 0 := by
  simp [Entropy]

theorem Entropy_nonneg {p : ℝ} (h0 : 0 ≤ p) (h1 : p ≤ 1) : 0 ≤ Entropy p := by
  unfold Entropy
  by_cases h : p = 0 ∨ p = 1
  · rw [if_pos h]
  · push_neg at h
    rw [if_neg (by tauto)]
    have hp0 : 0 < p := lt_of_le_of_ne h0 (Ne.symm h.1)
    have hp1 : p < 1 := lt_of_le_of_ne h1 h.2
    have hlb : Real.logb 2 p < 0 := Real.logb_neg one_lt_two hp0 hp1
    nlinarith

theorem Entropy_pos {p : ℝ} (h0 : 0 < p) (h1 : p < 1) : 0 < Entropy p := by
  unfold Entropy
  rw [if_neg (by push_neg; exact ⟨ne_of_gt h0, ne_of_lt h1⟩)]
  have hlb : Real.logb 2 p < 0 := Real.logb_neg one_lt_two h0 h1
  nlinarith

theorem entropy_concaveOn : ConcaveOn ℝ (Set.Ici (0 : ℝ)) Entropy := by
  have hc : (0 : ℝ) ≤ (Real.log 2)⁻¹ := by positivity
  have h2 := Real.concaveOn_negMulLog.smul hc
  have he : Entropy = fun p => (Real.log 2)⁻¹ • Real.negMulLog p := by
    funext p
    rw [Entropy_eq, smul_eq_mul, div_eq_inv_mul]
  rw [he]
  exact h2

/-! ## Counting partitions of the rows by a column value -/

theorem countP_partition (rows : List (List String)) (g : List String → String)
    (p : List String → Bool) (s : Finset String)
    (hs : ∀ r ∈ rows, g r ∈ s) :
    ∑ x in s, rows.countP (fun r => p r && (g r == x)) = rows.countP p := by
  induction rows with
  | nil => simp
  | cons r t ih =>
    have hs' : ∀ r' ∈ t, g r' ∈ s := fun r' h => hs r' (by simp [h])
    have hr : g r ∈ s := hs r (by simp)
    by_cases hp : p r
    · have hx : ∀ x, (r :: t).countP (fun r' => p r' && (g r' == x))
          = t.countP (fun r' => p r' && (g r' == x)) + if g r = x then 1 else 0 := by
        intro x
        rcases eq_or_ne (g r) x with h | h <;> simp [List.countP_cons, hp, h]
      simp only [hx]
      rw [Finset.sum_add_distrib, ih hs', Finset.sum_ite_eq s (g r) (fun _ => 1),
        if_pos hr, List.countP_cons, if_pos hp]
    · have hx : ∀ x, (r :: t).countP (fun r' => p r' && (g r' == x))
          = t.countP (fun r' => p r' && (g r' == x)) := by
        intro x
        simp [List.countP_cons, hp]
      simp only [hx]
      rw [ih hs', List.countP_cons, if_neg hp, Nat.add_zero]

theorem mem_colVals_toFinset (i : Nat) {rows : List (List String)}
    (r : List String) (hr : r ∈ rows) :
    r.getD i "" ∈ (colVals rows i).toFinset := by
  rw [List.mem_toFinset, colVals]
  exact List.mem_map.mpr ⟨r, hr, rfl⟩

theorem sum_cnt_eq_length (rows : List (List String)) (i : Nat) :
    ∑ x in (colVals rows i).toFinset, cnt rows i x = rows.length := by
  have h := countP_partition rows (fun r => r.getD i "") (fun _ => true)
    (colVals rows i).toFinset (fun r hr => mem_colVals_toFinset i r hr)
  have he : ∀ x, rows.countP (fun r => true && (r.getD i "" == x)) = cnt rows i x := by
    intro x
    simp [cnt]
  simp only [he] at h
  rw [h, List.countP_true]

theorem cnt_selectAt (rows : List (List String)) (ai ci : Nat) (x y : String) :
    cnt (selectAt rows ai x) ci y
      = rows.countP (fun r => (r.getD ci "" == y) && (r.getD ai "" == x)) := by
  rw [cnt, selectAt, List.countP_filter]

theorem sum_cnt_selectAt (rows : List (List String)) (ai ci : Nat) (y : String) :
    ∑ x in (colVals rows ai).toFinset, cnt (selectAt rows ai x) ci y
      = cnt rows ci y := by
  have h := countP_partition rows (fun r => r.getD ai "")
    (fun r => r.getD ci "" == y) (colVals rows ai).toFinset
    (fun r hr => mem_colVals_toFinset ai r hr)
  calc ∑ x in (colVals rows ai).toFinset, cnt (selectAt rows ai x) ci y
      = ∑ x in (colVals rows ai).toFinset,
          rows.countP (fun r => (r.getD ci "" == y) && (r.getD ai "" == x)) := by
        refine Finset.sum_congr rfl (fun x _ => ?_)
        exact cnt_selectAt rows ai ci x y
    _ = cnt rows ci y := by
        rw [h, cnt]

theorem cnt_pos_of_mem {rows : List (List String)} {i : Nat} {x : String}
    (hx : x ∈ (colVals rows i).toFinset) : 0 < cnt rows i x := by
  rw [← cnt_colVals]
  rw [List.mem_toFinset] at hx
  exact List.count_pos_iff.mpr hx

theorem cnt_le_length (rows : List (List String)) (i : Nat) (x : String) :
    cnt rows i x ≤ rows.length :=
  List.countP_le_length _

theorem selectAt_sublist (rows : List (List String)) (ai : Nat) (x : String) :
    (selectAt rows ai x).Sublist rows :=
  List.filter_sublist rows

theorem colVals_select_subset (rows : List (List String)) (ai ci : Nat)
    (x : String) :
    (colVals (selectAt rows ai x) ci).toFinset ⊆ (colVals rows ci).toFinset := by
  intro y hy
  rw [List.mem_toFinset] at hy ⊢
  have hsub : (colVals (selectAt rows ai x) ci).Sublist (colVals rows ci) := by
    unfold colVals
    exact (selectAt_sublist rows ai x).map (fun r => r.getD ci "")
  exact hsub.mem hy

theorem cnt_eq_zero_of_not_mem {rows : List (List String)} {i : Nat}
    {y : String} (hy : y ∉ (colVals rows i).toFinset) : cnt rows i y = 0 := by
  rw [← cnt_colVals]
  rw [List.mem_toFinset] at hy
  exact List.count_eq_zero.mpr hy

/-! ## Finset forms of the entropy sums -/

theorem probOf_cast (rows : List (List String)) (i : Nat) (v : String) :
    ((probOf rows i v : ℚ) : ℝ) = (cnt rows i v : ℝ) / (rows.length : ℝ) := by
  rw [probOf]
  push_cast
  ring

theorem totalEntropyAt_eq (rows : List (List String)) (ci : Nat) :
    totalEntropyAt rows ci
      = ∑ y in (colVals rows ci).toFinset,
          Entropy ((cnt rows ci y : ℝ) / (rows.length : ℝ)) := by
  rw [totalEntropyAt, sum_map_likelihoodAt]
  refine Finset.sum_congr rfl (fun y _ => ?_)
  rw [show (⟨y, probOf rows ci y⟩ : Distinct).Probability = probOf rows ci y from rfl,
    probOf_cast]

theorem averageEntropyAt_eq (rows : List (List String)) (ai ci : Nat) :
    averageEntropyAt rows ai ci
      = ∑ x in (colVals rows ai).toFinset,
          ((cnt rows ai x : ℝ) / (rows.length : ℝ))
            * totalEntropyAt (selectAt rows ai x) ci := by
  rw [averageEntropyAt, sum_map_likelihoodAt]
  refine Finset.sum_congr rfl (fun x _ => ?_)
  rw [show (⟨x, probOf rows ai x⟩ : Distinct).Probability = probOf rows ai x from rfl,
    show (⟨x, probOf rows ai x⟩ : Distinct).Value = x from rfl, probOf_cast]

theorem cnt_div_le_one (rows : List (List String)) (i : Nat) (v : String) :
    (cnt rows i v : ℝ) / (rows.length : ℝ) ≤ 1 := by
  rcases Nat.eq_zero_or_pos rows.length with h | h
  · simp [h]
  · rw [div_le_one (by positivity)]
    exact_mod_cast cnt_le_length rows i v

theorem totalEntropyAt_nonneg (rows : List (List String)) (ci : Nat) :
    0 ≤ totalEntropyAt rows ci := by
  rw [totalEntropyAt_eq]
  refine Finset.sum_nonneg (fun y _ => ?_)
  exact Entropy_nonneg (by positivity) (cnt_div_le_one rows ci y)

/-! ## Class purity: zero total entropy means a single class value -/

theorem totalEntropyAt_eq_zero_iff (rows : List (List String)) (ci : Nat) :
    totalEntropyAt rows ci = 0 ↔
      ∀ r1 ∈ rows, ∀ r2 ∈ rows, r1.getD ci "" = r2.getD ci "" := by
  rw [totalEntropyAt_eq]
  rw [Finset.sum_eq_zero_iff_of_nonneg
    (fun y _ => Entropy_nonneg (by positivity) (cnt_div_le_one rows ci y))]
  constructor
  · intro hall r1 hr1 r2 hr2
    by_contra hne
    have hN : 0 < rows.length := List.length_pos.mpr (fun he => by rw [he] at hr1; exact absurd hr1 (List.not_mem_nil r1))
    have hcntN : ∀ r ∈ rows, cnt rows ci (r.getD ci "") = rows.length := by
      intro r hr
      have hy := mem_colVals_toFinset ci r hr
      have hz := hall _ hy
      have hpos : 0 < cnt rows ci (r.getD ci "") := cnt_pos_of_mem hy
      by_contra hlt
      have hlt' : cnt rows ci (r.getD ci "") < rows.length :=
        lt_of_le_of_ne (cnt_le_length rows ci _) hlt
      have h0 : (0 : ℝ) < (cnt rows ci (r.getD ci "") : ℝ) / (rows.length : ℝ) := by
        positivity
      have h1 : (cnt rows ci (r.getD ci "") : ℝ) / (rows.length : ℝ) < 1 := by
        rw [div_lt_one (by positivity)]
        exact_mod_cast hlt'
      exact absurd hz (ne_of_gt (Entropy_pos h0 h1))
    have h1 := hcntN r1 hr1
    have h2 := hcntN r2 hr2
    have hpair : cnt rows ci (r1.getD ci "") + cnt rows ci (r2.getD ci "")
        ≤ rows.length := by
      rw [← cnt_colVals, ← cnt_colVals]
      have := @count_pair_le_length (colVals rows ci) _ _ hne
      calc (colVals rows ci).count (r1.getD ci "")
            + (colVals rows ci).count (r2.getD ci "")
          ≤ (colVals rows ci).length := this
        _ = rows.length := by simp [colVals]
    omega
  · intro hsame y hy
    rcases List.eq_nil_or_concat rows with rfl | -
    · simp [colVals] at hy
    rw [List.mem_toFinset, colVals, List.mem_map] at hy
    obtain ⟨r0, hr0, rfl⟩ := hy
    have hcnt : cnt rows ci (r0.getD ci "") = rows.length := by
      rw [cnt]
      apply List.countP_eq_length.mpr
      intro r hr
      simpa using hsame r hr r0 hr0
    rw [hcnt, div_self (by
      have : 0 < rows.length := List.length_pos.mpr (fun he => by rw [he] at hr0; exact absurd hr0 (List.not_mem_nil r0))
      positivity), Entropy_one]

/-! ## Jensen: splitting can only lower expected class entropy -/

theorem averageEntropyAt_le_totalEntropyAt (rows : List (List String))
    (ai ci : Nat) : averageEntropyAt rows ai ci ≤ totalEntropyAt rows ci := by
  by_cases hnil : rows = []
  · subst hnil
    simp [averageEntropyAt_eq, totalEntropyAt_eq, colVals]
  have hN : 0 < rows.length := List.length_pos.mpr hnil
  have hNR : (0 : ℝ) < (rows.length : ℝ) := by exact_mod_cast hN
  have hinner : ∀ x ∈ (colVals rows ai).toFinset,
      ((cnt rows ai x : ℝ) / (rows.length : ℝ))
          * totalEntropyAt (selectAt rows ai x) ci
        = ∑ y in (colVals rows ci).toFinset,
            ((cnt rows ai x : ℝ) / (rows.length : ℝ))
              * Entropy ((cnt (selectAt rows ai x) ci y : ℝ) / (cnt rows ai x : ℝ)) := by
    intro x hx
    have hlen : (selectAt rows ai x).length = cnt rows ai x := by
      rw [selectAt, cnt, ← List.countP_eq_length_filter]
    rw [totalEntropyAt_eq, hlen]
    rw [← Finset.sum_subset (colVals_select_subset rows ai ci x)
      (fun y _ hyn => by rw [cnt_eq_zero_of_not_mem hyn]; simp [Entropy_zero])]
    rw [Finset.mul_sum]
  rw [averageEntropyAt_eq, Finset.sum_congr rfl hinner, Finset.sum_comm,
    totalEntropyAt_eq]
  apply Finset.sum_le_sum
  intro y hy
  have hw0 : ∀ x ∈ (colVals rows ai).toFinset,
      0 ≤ (cnt rows ai x : ℝ) / (rows.length : ℝ) := by
    intro x _
    positivity
  have hw1 : ∑ x in (colVals rows ai).toFinset,
      (cnt rows ai x : ℝ) / (rows.length : ℝ) = 1 := by
    rw [← Finset.sum_div]
    rw [show ∑ x in (colVals rows ai).toFinset, (cnt rows ai x : ℝ)
        = ((∑ x in (colVals rows ai).toFinset, cnt rows ai x : ℕ) : ℝ) by push_cast; rfl]
    rw [sum_cnt_eq_length]
    exact div_self (ne_of_gt hNR)
  have hmem : ∀ x ∈ (colVals rows ai).toFinset,
      (cnt (selectAt rows ai x) ci y : ℝ) / (cnt rows ai x : ℝ) ∈ Set.Ici (0 : ℝ) := by
    intro x _
    have : (0 : ℝ) ≤ (cnt (selectAt rows ai x) ci y : ℝ) / (cnt rows ai x : ℝ) := by
      positivity
    simpa using this
  have hj := entropy_concaveOn.le_map_sum hw0 hw1 hmem
  have hcombo : ∑ x in (colVals rows ai).toFinset,
      ((cnt rows ai x : ℝ) / (rows.length : ℝ))
        • ((cnt (selectAt rows ai x) ci y : ℝ) / (cnt rows ai x : ℝ))
      = (cnt rows ci y : ℝ) / (rows.length : ℝ) := by
    have hterm : ∀ x ∈ (colVals rows ai).toFinset,
        ((cnt rows ai x : ℝ) / (rows.length : ℝ))
          • ((cnt (selectAt rows ai x) ci y : ℝ) / (cnt rows ai x : ℝ))
        = (cnt (selectAt rows ai x) ci y : ℝ) / (rows.length : ℝ) := by
      intro x hx
      have hx0 : (0 : ℝ) < (cnt rows ai x : ℝ) := by
        exact_mod_cast cnt_pos_of_mem hx
      rw [smul_eq_mul]
      field_simp
      ring
    rw [Finset.sum_congr rfl hterm, ← Finset.sum_div]
    rw [show ∑ x in (colVals rows ai).toFinset, (cnt (selectAt rows ai x) ci y : ℝ)
        = ((∑ x in (colVals rows ai).toFinset, cnt (selectAt rows ai x) ci y : ℕ) : ℝ)
      by push_cast; rfl]
    rw [sum_cnt_selectAt]
  rw [hcombo] at hj
  calc ∑ x in (colVals rows ai).toFinset,
        ((cnt rows ai x : ℝ) / (rows.length : ℝ))
          * Entropy ((cnt (selectAt rows ai x) ci y : ℝ) / (cnt rows ai x : ℝ))
      = ∑ x in (colVals rows ai).toFinset,
        ((cnt rows ai x : ℝ) / (rows.length : ℝ))
          • Entropy ((cnt (selectAt rows ai x) ci y : ℝ) / (cnt rows ai x : ℝ)) := by
        refine Finset.sum_congr rfl (fun x _ => ?_)
        rw [smul_eq_mul]
    _ ≤ Entropy ((cnt rows ci y : ℝ) / (rows.length : ℝ)) := hj

/-! ## The split-column scan -/

theorem argmaxFold_cons (skip : String → Prop) [DecidablePred skip]
    (f : String → ℝ) (n : String) (l : List String) (acc : ℝ × String) :
    argmaxFold skip f (n :: l) acc
      = argmaxFold skip f l
          (if skip n then acc else if f n > acc.1 then (f n, n) else acc) := by
  rfl

theorem argmaxFold_spec (skip : String → Prop) [DecidablePred skip]
    (f : String → ℝ) :
    ∀ (l : List String) (g0 : ℝ) (c0 : String),
      ((∀ n ∈ l, skip n ∨ f n ≤ g0) ∧ argmaxFold skip f l (g0, c0) = (g0, c0))
      ∨ ∃ m l1 l2, l = l1 ++ m :: l2 ∧ ¬ skip m ∧ g0 < f m
          ∧ (∀ n ∈ l1, ¬ skip n → f n < f m)
          ∧ (∀ n ∈ l2, ¬ skip n → f n ≤ f m)
          ∧ argmaxFold skip f l (g0, c0) = (f m, m) := by
  intro l
  induction l with
  | nil =>
    intro g0 c0
    exact Or.inl ⟨by simp, rfl⟩
  | cons n t ih =>
    intro g0 c0
    by_cases hskip : skip n
    · rw [argmaxFold_cons, if_pos hskip]
      rcases ih g0 c0 with ⟨hall, heq⟩ | ⟨m, l1, l2, hsplit, hm, hgt, h1, h2, heq⟩
      · refine Or.inl ⟨?_, heq⟩
        intro k hk
        rcases List.mem_cons.mp hk with rfl | hk
        · exact Or.inl hskip
        · exact hall k hk
      · refine Or.inr ⟨m, n :: l1, l2, by rw [hsplit]; rfl, hm, hgt, ?_, h2, heq⟩
        intro k hk hks
        rcases List.mem_cons.mp hk with rfl | hk
        · exact absurd hskip hks
        · exact h1 k hk hks
    · rw [argmaxFold_cons, if_neg hskip]
      by_cases hgt : f n > g0
      · rw [if_pos hgt]
        rcases ih (f n) n with ⟨hall, heq⟩ | ⟨m, l1, l2, hsplit, hm, hgt', h1, h2, heq⟩
        · refine Or.inr ⟨n, [], t, rfl, hskip, hgt, by simp, ?_, heq⟩
          intro k hk hks
          rcases hall k hk with h | h
          · exact absurd h hks
          · exact h
        · refine Or.inr ⟨m, n :: l1, l2, by rw [hsplit]; rfl, hm, lt_trans hgt hgt', ?_, h2, heq⟩
          intro k hk hks
          rcases List.mem_cons.mp hk with rfl | hk
          · exact hgt'
          · exact h1 k hk hks
      · rw [if_neg hgt]
        push_neg at hgt
        rcases ih g0 c0 with ⟨hall, heq⟩ | ⟨m, l1, l2, hsplit, hm, hgt', h1, h2, heq⟩
        · refine Or.inl ⟨?_, heq⟩
          intro k hk
          rcases List.mem_cons.mp hk with rfl | hk
          · exact Or.inr hgt
          · exact hall k hk
        · refine Or.inr ⟨m, n :: l1, l2, by rw [hsplit]; rfl, hm, hgt', ?_, h2, heq⟩
          intro k hk hks
          rcases List.mem_cons.mp hk with rfl | hk
          · exact lt_of_le_of_lt hgt hgt'
          · exact h1 k hk hks

theorem argmaxFold_picks (skip : String → Prop) [DecidablePred skip]
    (f : String → ℝ) (l : List String)
    (hex : ∃ n ∈ l, ¬ skip n) (hgt : ∀ n ∈ l, ¬ skip n → -1 < f n) :
    ∃ m l1 l2, l = l1 ++ m :: l2 ∧ ¬ skip m
      ∧ (∀ n ∈ l, ¬ skip n → f n ≤ f m)
      ∧ (∀ n ∈ l1, ¬ skip n → f n < f m)
      ∧ argmaxFold skip f l ((-1 : ℝ), "") = (f m, m) := by
  rcases argmaxFold_spec skip f l (-1) "" with ⟨hall, -⟩ |
    ⟨m, l1, l2, hsplit, hm, hgm, h1, h2, heq⟩
  · obtain ⟨n, hn, hns⟩ := hex
    rcases hall n hn with h | h
    · exact absurd h hns
    · exact absurd h (not_le.mpr (hgt n hn hns))
  · refine ⟨m, l1, l2, hsplit, hm, ?_, h1, heq⟩
    intro n hn hns
    rw [hsplit] at hn
    rcases List.mem_append.mp hn with hn | hn
    · exact le_of_lt (h1 n hn hns)
    · rcases List.mem_cons.mp hn with rfl | hn
      · exact le_refl _
      · exact h2 n hn hns

theorem gainFold_eq {view : GoView} {cls : String} {ci : Nat} (h : ℝ)
    (hci : find view.cols cls = some ci) :
    gainFold view cls h
      = some (argmaxFold (fun n => n = cls ∨ n = "")
          (fun n => h - averageEntropyAt view.rows ((find view.cols n).getD 0) ci)
          view.cols ((-1 : ℝ), "")) := by
  rw [gainFold, argmaxFold]
  have hgen : ∀ (l : List String), (∀ n ∈ l, n ∈ view.cols) → ∀ acc : ℝ × String,
      (l.foldlM
        (fun acc name =>
          if name = cls ∨ name = "" then pure acc
          else do
            let ae ← AverageEntropy view name cls
            pure (if h - ae > acc.1 then (h - ae, name) else acc))
        acc : Option (ℝ × String))
      = some (l.foldl
          (fun acc name =>
            if name = cls ∨ name = "" then acc
            else if h - averageEntropyAt view.rows ((find view.cols name).getD 0) ci
                > acc.1
              then (h - averageEntropyAt view.rows ((find view.cols name).getD 0) ci,
                name)
              else acc)
          acc) := by
    intro l
    induction l with
    | nil =>
      intro _ acc
      rfl
    | cons n t ih =>
      intro hmem acc
      rw [List.foldlM_cons, List.foldl_cons]
      by_cases hs : n = cls ∨ n = ""
      · rw [if_pos hs, if_pos hs]
        exact ih (fun k hk => hmem k (by simp [hk])) acc
      · rw [if_neg hs, if_neg hs]
        obtain ⟨ai, hai⟩ := find_some_of_mem (hmem n (by simp))
        have hA : AverageEntropy view n cls
            = some (averageEntropyAt view.rows ai ci) := by
          rw [AverageEntropy, hci, hai]
          rfl
        rw [hA, hai]
        show (t.foldlM _ _ : Option (ℝ × String)) = _
        exact ih (fun k hk => hmem k (by simp [hk])) _
  exact hgen view.cols (fun n hn => hn) _

theorem gain_gt_neg_one (view : GoView) (ci : Nat) (n : String) :
    (-1 : ℝ) < totalEntropyAt view.rows ci
      - averageEntropyAt view.rows ((find view.cols n).getD 0) ci := by
  have h := averageEntropyAt_le_totalEntropyAt view.rows
    ((find view.cols n).getD 0) ci
  linarith

theorem gainOf_eq {view : GoView} {cls : String} {ci : Nat}
    (hci : find view.cols cls = some ci) (n : String) :
    gainOf view cls n
      = totalEntropyAt view.rows ci
          - averageEntropyAt view.rows ((find view.cols n).getD 0) ci := by
  rw [gainOf, hci]
  rfl

/-- The selection scan always picks the first column of maximum gain, and
picks one as soon as any eligible column exists (the sentinel `-1` is below
every gain because splitting cannot raise expected class entropy). -/
theorem gainFold_spec {view : GoView} {cls : String} {ci : Nat}
    (hci : find view.cols cls = some ci)
    (hex : ∃ n ∈ view.cols, ¬ (n = cls ∨ n = "")) :
    ∃ m, gainFold view cls (totalEntropyAt view.rows ci)
        = some (gainOf view cls m, m)
      ∧ IsFirstMaxGain view cls m ∧ m ∈ view.cols := by
  rw [gainFold_eq (totalEntropyAt view.rows ci) hci]
  obtain ⟨m, l1, l2, hsplit, hm, hmax, hfirst, heq⟩ :=
    argmaxFold_picks (fun n => n = cls ∨ n = "")
      (fun n => totalEntropyAt view.rows ci
        - averageEntropyAt view.rows ((find view.cols n).getD 0) ci)
      view.cols hex
      (fun n _ _ => gain_gt_neg_one view ci n)
  refine ⟨m, ?_, ⟨hm, ⟨l1, l2, hsplit, ?_⟩, ?_⟩, by rw [hsplit]; simp⟩
  · rw [heq, gainOf_eq hci]
  · intro n hn hns
    rw [gainOf_eq hci, gainOf_eq hci]
    exact hfirst n hn hns
  · intro n hn hns
    rw [gainOf_eq hci, gainOf_eq hci]
    exact hmax n hn hns

/-! ## Unfolding `Learn` -/

theorem Learn_zero (cls : String) (view : GoView) : Learn cls 0 view = none :=
  rfl

theorem Learn_succ (cls : String) (fuel : Nat) (view : GoView) :
    Learn cls (fuel + 1) view
      = (TotalEntropy view cls).bind (fun h =>
          (gainFold view cls h).bind (fun sel =>
            (Likelihood view sel.2).bind (fun l =>
              (l.mapM (learnCase cls (Learn cls fuel) view sel.2)).bind
                (fun cases => some (Decision.node sel.2 cases))))) :=
  rfl

theorem TotalEntropy_eq {view : GoView} {cls : String} {ci : Nat}
    (hci : find view.cols cls = some ci) :
    TotalEntropy view cls = some (totalEntropyAt view.rows ci) := by
  rw [TotalEntropy, hci]
  rfl

theorem Likelihood_eq {view : GoView} {c : String} {i : Nat}
    (hi : find view.cols c = some i) :
    Likelihood view c = some (likelihoodAt view.rows i) := by
  rw [Likelihood, hi]
  rfl

theorem Select_eq {view : GoView} {c : String} {i : Nat}
    (hi : find view.cols c = some i) (val : String) :
    view.Select c val = some ⟨view.cols, selectAt view.rows i val⟩ := by
  rw [GoView.Select, hi]
  rfl

theorem Drop_eq {view : GoView} {c : String} {i : Nat}
    (hi : find view.cols c = some i) :
    view.Drop c = some ⟨view.cols.set i "", view.rows⟩ := by
  rw [GoView.Drop, hi]
  rfl

theorem Learn_succ_some {cls : String} {fuel : Nat} {view : GoView}
    {h0 : ℝ} {sel : ℝ × String} {l : List Distinct} {cases : List Case}
    (h1 : TotalEntropy view cls = some h0)
    (h2 : gainFold view cls h0 = some sel)
    (h3 : Likelihood view sel.2 = some l)
    (h4 : l.mapM (learnCase cls (Learn cls fuel) view sel.2) = some cases) :
    Learn cls (fuel + 1) view = some (Decision.node sel.2 cases) := by
  rw [Learn_succ, h1, Option.some_bind, h2, Option.some_bind, h3,
    Option.some_bind, h4, Option.some_bind]

theorem Learn_succ_inv {cls : String} {fuel : Nat} {view : GoView}
    {d : Decision} (h : Learn cls (fuel + 1) view = some d) :
    ∃ h0 sel l cases, TotalEntropy view cls = some h0
      ∧ gainFold view cls h0 = some sel
      ∧ Likelihood view sel.2 = some l
      ∧ l.mapM (learnCase cls (Learn cls fuel) view sel.2) = some cases
      ∧ d = Decision.node sel.2 cases := by
  rw [Learn_succ] at h
  cases hT : TotalEntropy view cls with
  | none =>
    rw [hT, Option.none_bind] at h
    exact absurd h (by simp)
  | some h0 =>
    rw [hT, Option.some_bind] at h
    cases hG : gainFold view cls h0 with
    | none =>
      rw [hG, Option.none_bind] at h
      exact absurd h (by simp)
    | some sel =>
      rw [hG, Option.some_bind] at h
      cases hL : Likelihood view sel.2 with
      | none =>
        rw [hL, Option.none_bind] at h
        exact absurd h (by simp)
      | some l =>
        rw [hL, Option.some_bind] at h
        cases hM : l.mapM (learnCase cls (Learn cls fuel) view sel.2) with
        | none =>
          rw [hM, Option.none_bind] at h
          exact absurd h (by simp)
        | some cases =>
          rw [hM, Option.some_bind] at h
          exact ⟨h0, sel, l, cases, rfl, hG, hL, hM,
            (Option.some_inj.mp h).symm⟩

theorem mapM_option_forall {α β : Type} {f : α → Option β} (P : α → β → Prop) :
    ∀ {l : List α}, (∀ x ∈ l, ∃ y, f x = some y ∧ P x y) →
      ∃ ys, l.mapM f = some ys ∧ List.Forall₂ P l ys := by
  intro l
  induction l with
  | nil =>
    intro _
    exact ⟨[], rfl, List.Forall₂.nil⟩
  | cons a t ih =>
    intro hall
    obtain ⟨y, hy, hPy⟩ := hall a (by simp)
    obtain ⟨ys, hys, hPys⟩ := ih (fun x hx => hall x (by simp [hx]))
    refine ⟨y :: ys, ?_, List.Forall₂.cons hPy hPys⟩
    rw [List.mapM_cons, hy, hys]
    rfl

theorem mem_likelihoodAt {rows : List (List String)} {i : Nat} {dist : Distinct}
    (h : dist ∈ likelihoodAt rows i) :
    dist.Value ∈ colVals rows i ∧ dist.Probability = probOf rows i dist.Value := by
  rw [likelihoodAt, likelihoodOrd] at h
  have hmem := (List.perm_insertionSort probGE _).mem_iff.mp h
  rw [List.mem_map] at hmem
  obtain ⟨v, hv, hveq⟩ := hmem
  cases hveq
  exact ⟨List.mem_dedup.mp hv, rfl⟩

/-! ## Helpers for the learning induction -/

theorem getD_set_ne (l : List String) (j i : Nat) (y : String) (hij : i ≠ j) :
    (l.set j y).getD i "" = l.getD i "" := by
  simp only [List.getD, List.get?_eq_getElem?]
  rw [List.getElem?_set_ne (fun h => hij h.symm)]

theorem eligCount_drop {cols : List String} {j : Nat} {cls : String}
    (hj : j < cols.length) (hm : ¬(cols.getD j "" = cls ∨ cols.getD j "" = "")) :
    ((cols.set j "").filter (fun n => !(n == cls || n == ""))).length + 1
      = (cols.filter (fun n => !(n == cls || n == ""))).length := by
  induction cols generalizing j with
  | nil => simp at hj
  | cons c t ih =>
    cases j with
    | zero =>
      push_neg at hm
      have hgd : (c :: t).getD 0 "" = c := rfl
      rw [hgd] at hm
      have hc : (!(c == cls || c == "")) = true := by
        simp only [Bool.not_eq_true', Bool.or_eq_false_iff, beq_eq_false_iff_ne]
        exact ⟨hm.1, hm.2⟩
      have hblank : (!(("" : String) == cls || ("" : String) == "")) = false := by
        simp
      rw [List.set_cons_zero, List.filter_cons, List.filter_cons, if_pos hc,
        if_neg (by rw [hblank]; exact Bool.false_ne_true), List.length_cons]
    | succ j' =>
      have hj' : j' < t.length := by simpa using hj
      have hm' : ¬(t.getD j' "" = cls ∨ t.getD j' "" = "") := hm
      rw [List.set_cons_succ, List.filter_cons, List.filter_cons]
      by_cases hc : (!(c == cls || c == "")) = true
      · rw [if_pos hc, if_pos hc, List.length_cons, List.length_cons,
          ← ih hj' hm']
      · rw [if_neg hc, if_neg hc]
        exact ih hj' hm'

theorem mem_selectAt_getD {rows : List (List String)} {i : Nat} {v : String}
    {r : List String} (hr : r ∈ selectAt rows i v) :
    r ∈ rows ∧ r.getD i "" = v := by
  rw [selectAt] at hr
  exact ⟨List.mem_of_mem_filter hr, by simpa using List.of_mem_filter hr⟩

theorem selectAt_ne_nil {rows : List (List String)} {i : Nat} {v : String}
    (hv : v ∈ colVals rows i) : selectAt rows i v ≠ [] := by
  have hlen : (selectAt rows i v).length = cnt rows i v := by
    rw [selectAt, cnt, ← List.countP_eq_length_filter]
  intro he
  rw [he] at hlen
  have hpos : 0 < cnt rows i v := by
    rw [← cnt_colVals]
    exact List.count_pos_iff.mpr hv
  rw [← hlen] at hpos
  exact lt_irrefl 0 hpos

theorem Consistent_drop_select {view : GoView} {cls m : String} {am : Nat}
    (hcons : Consistent view cls) (hclsne : cls ≠ "")
    (ham : find view.cols m = some am) (hm : ¬(m = cls ∨ m = ""))
    (val : String) :
    Consistent ⟨view.cols.set am "", selectAt view.rows am val⟩ cls := by
  intro ci hci r1 hr1 r2 hr2 hagree
  push_neg at hm
  have hgetam : view.cols.getD am "" = m := find_getD ham
  have hfind : find (view.cols.set am "") cls = find view.cols cls :=
    find_set_of_ne (fun h => hclsne h.symm) (by rw [hgetam]; exact hm.1)
  rw [hfind] at hci
  obtain ⟨hr1m, hr1v⟩ := mem_selectAt_getD hr1
  obtain ⟨hr2m, hr2v⟩ := mem_selectAt_getD hr2
  apply hcons ci hci r1 hr1m r2 hr2m
  intro i hi hne hnecls
  by_cases hij : i = am
  · subst hij
    rw [hr1v, hr2v]
  · have hset : (view.cols.set am "").getD i "" = view.cols.getD i "" :=
      getD_set_ne _ _ _ _ hij
    exact hagree i (by simpa using hi) (by rw [hset]; exact hne)
      (by rw [hset]; exact hnecls)

theorem eligible_of_impure {view : GoView} {cls : String} {ci : Nat}
    (hci : find view.cols cls = some ci) (hcons : Consistent view cls)
    (himp : totalEntropyAt view.rows ci ≠ 0) :
    ∃ n ∈ view.cols, ¬(n = cls ∨ n = "") := by
  by_contra hno
  push_neg at hno
  apply himp
  rw [totalEntropyAt_eq_zero_iff]
  intro r1 hr1 r2 hr2
  apply hcons ci hci r1 hr1 r2 hr2
  intro i hi hne hnecls
  exfalso
  have hmem : view.cols.getD i "" ∈ view.cols := by
    rw [getD_of_lt _ _ hi]
    exact List.getElem_mem hi
  rcases hno _ hmem with h | h
  · exact hnecls h
  · exact hne h

theorem learnCase_inv {cls : String} {rec : GoView → Option Decision}
    {view : GoView} {m : String} {dist : Distinct} {c : Case} {am ci : Nat}
    (ham : find view.cols m = some am) (hci : find view.cols cls = some ci)
    (h : learnCase cls rec view m dist = some c) :
    (totalEntropyAt (selectAt view.rows am dist.Value) ci = 0
      ∧ c = Case.mk dist.Value
          (((selectAt view.rows am dist.Value).headD []).getD ci "") none)
    ∨ (totalEntropyAt (selectAt view.rows am dist.Value) ci ≠ 0
      ∧ ∃ d', rec ⟨view.cols.set am "", selectAt view.rows am dist.Value⟩ = some d'
        ∧ c = Case.mk dist.Value "" (some d')) := by
  rw [learnCase] at h
  rw [Select_eq ham] at h
  simp only [Option.bind_eq_bind, Option.pure_def, Option.some_bind] at h
  rw [@TotalEntropy_eq ⟨view.cols, selectAt view.rows am dist.Value⟩ cls ci hci] at h
  simp only [Option.some_bind] at h
  by_cases hpure : totalEntropyAt (selectAt view.rows am dist.Value) ci = 0
  · rw [if_pos hpure] at h
    left
    refine ⟨hpure, ?_⟩
    cases hsub : selectAt view.rows am dist.Value with
    | nil =>
      rw [hsub] at h
      exact absurd h (by simp)
    | cons r0 t =>
      rw [hsub] at h
      simp only [List.head?_cons, Option.some_bind] at h
      rw [show find (GoView.mk view.cols (r0 :: t)).cols cls = some ci from hci] at h
      simp only [Option.some_bind] at h
      exact (Option.some_inj.mp h).symm
  · rw [if_neg hpure] at h
    right
    refine ⟨hpure, ?_⟩
    rw [@Drop_eq ⟨view.cols, selectAt view.rows am dist.Value⟩ m am ham] at h
    simp only [Option.some_bind] at h
    cases hrec : rec ⟨view.cols.set am "", selectAt view.rows am dist.Value⟩ with
    | none =>
      rw [hrec] at h
      exact absurd h (by simp)
    | some d' =>
      rw [hrec] at h
      simp only [Option.some_bind] at h
      exact ⟨d', rfl, (Option.some_inj.mp h).symm⟩

theorem mapM_option_forall_inv {α β : Type} {f : α → Option β} :
    ∀ {l : List α} {ys : List β}, l.mapM f = some ys →
      List.Forall₂ (fun x y => f x = some y) l ys := by
  intro l
  induction l with
  | nil =>
    intro ys h
    replace h : some [] = some ys := h
    rw [← Option.some_inj.mp h]
    exact List.Forall₂.nil
  | cons a t ih =>
    intro ys h
    rw [List.mapM_cons] at h
    cases ha : f a with
    | none =>
      rw [ha] at h
      exact absurd h (by simp)
    | some y =>
      rw [ha] at h
      cases ht : t.mapM f with
      | none =>
        rw [ht] at h
        exact absurd h (by simp)
      | some ys' =>
        rw [ht] at h
        replace h : some (y :: ys') = some ys := h
        rw [← Option.some_inj.mp h]
        exact List.Forall₂.cons ha (ih ht)

/-- Termination: `Learn` succeeds on every nonempty consistent view with a visible class
column and at least one eligible column, given fuel exceeding the number of
eligible column positions. -/
theorem Learn_terminates_aux :
    ∀ (fuel : Nat) (view : GoView) (cls : String) (ci : Nat),
      find view.cols cls = some ci → cls ≠ "" →
      Consistent view cls → view.rows ≠ [] →
      (∃ n ∈ view.cols, ¬(n = cls ∨ n = "")) →
      eligCount view cls < fuel →
      ∃ d, Learn cls fuel view = some d := by
  intro fuel
  induction fuel with
  | zero =>
    intro view cls ci hci hclsne hcons hrows hex hlt
    exact absurd hlt (by omega)
  | succ fuel ih =>
    intro view cls ci hci hclsne hcons hrows hex hlt
    obtain ⟨m, hsel, hfmg, hmcols⟩ := gainFold_spec hci hex
    have hm : ¬(m = cls ∨ m = "") := hfmg.1
    obtain ⟨am, ham⟩ := find_some_of_mem hmcols
    have hcases : ∀ dist ∈ likelihoodAt view.rows am,
        ∃ c, learnCase cls (Learn cls fuel) view m dist = some c ∧ True := by
      intro dist hdist
      obtain ⟨hvmem, -⟩ := mem_likelihoodAt hdist
      have hsubne : selectAt view.rows am dist.Value ≠ [] := selectAt_ne_nil hvmem
      rw [learnCase, Select_eq ham]
      simp only [Option.bind_eq_bind, Option.pure_def, Option.some_bind]
      rw [@TotalEntropy_eq ⟨view.cols, selectAt view.rows am dist.Value⟩ cls ci hci]
      simp only [Option.some_bind]
      by_cases hpure : totalEntropyAt (selectAt view.rows am dist.Value) ci = 0
      · rw [if_pos hpure]
        cases hsub : selectAt view.rows am dist.Value with
        | nil => exact absurd hsub hsubne
        | cons r0 t =>
          simp only [List.head?_cons, Option.some_bind]
          rw [show find (GoView.mk view.cols (r0 :: t)).cols cls = some ci from hci]
          simp only [Option.some_bind]
          exact ⟨_, rfl, trivial⟩
      · rw [if_neg hpure]
        rw [@Drop_eq ⟨view.cols, selectAt view.rows am dist.Value⟩ m am ham]
        simp only [Option.some_bind]
        have hci' : find (view.cols.set am "") cls = some ci := by
          rw [find_set_of_ne (fun heq => hclsne heq.symm)
            (by rw [find_getD ham]; push_neg at hm; exact hm.1)]
          exact hci
        have hcons' : Consistent ⟨view.cols.set am "", selectAt view.rows am dist.Value⟩ cls :=
          Consistent_drop_select hcons hclsne ham hm dist.Value
        have hex' : ∃ n ∈ view.cols.set am "", ¬(n = cls ∨ n = "") :=
          @eligible_of_impure ⟨view.cols.set am "", selectAt view.rows am dist.Value⟩
            cls ci hci' hcons' hpure
        have hlt' : eligCount ⟨view.cols.set am "", selectAt view.rows am dist.Value⟩ cls < fuel := by
          have hdec := eligCount_drop (find_lt ham)
            (by rw [find_getD ham]; exact hm)
          have hgoal : eligCount ⟨view.cols.set am "", selectAt view.rows am dist.Value⟩ cls
              = ((view.cols.set am "").filter (fun n => !(n == cls || n == ""))).length := rfl
          rw [hgoal, eligCount] at *
          omega
        obtain ⟨d', hd'⟩ := ih ⟨view.cols.set am "", selectAt view.rows am dist.Value⟩
          cls ci hci' hclsne hcons' hsubne hex' hlt'
        rw [hd']
        simp only [Option.some_bind]
        exact ⟨_, rfl, trivial⟩
    obtain ⟨cases, hmapM, -⟩ :=
      mapM_option_forall (fun _ _ => True) hcases
    exact ⟨Decision.node m cases,
      Learn_succ_some (TotalEntropy_eq hci) hsel (Likelihood_eq ham) hmapM⟩

/-! ## Claim C1 -/

/-- Claim C1: for every view with at least one visible non-class column
(class column visible, as `Learn` presupposes), the split column `Learn`
selects is the column of maximum information gain
`totalEntropy - averageEntropy`, scanning columns in their existing order
and replacing the running maximum only on strictly greater gain, so ties
are won by the first such column; and because the running maximum starts at
`-1`, below any possible gain, the selected column name is never empty. -/
theorem C1_selects_first_max_gain (view : GoView) (cls : String)
    (hcls : cls ∈ view.cols)
    (hex : ∃ n ∈ view.cols, n ≠ cls ∧ n ≠ "") :
    ∃ m, m ≠ "" ∧ IsFirstMaxGain view cls m
      ∧ gainFold view cls
          (totalEntropyAt view.rows ((find view.cols cls).getD 0))
        = some (gainOf view cls m, m)
      ∧ ∀ fuel d, Learn cls fuel view = some d → d.Column = m := by
  obtain ⟨ci, hci⟩ := find_some_of_mem hcls
  have hex' : ∃ n ∈ view.cols, ¬ (n = cls ∨ n = "") := by
    obtain ⟨n, hn, h1, h2⟩ := hex
    exact ⟨n, hn, by tauto⟩
  obtain ⟨m, hsel, hfmg, hmcols⟩ := gainFold_spec hci hex'
  refine ⟨m, fun he => hfmg.1 (Or.inr he), hfmg, ?_, ?_⟩
  · rw [hci]
    exact hsel
  · intro fuel d hd
    cases fuel with
    | zero =>
      rw [Learn_zero] at hd
      exact absurd hd (by simp)
    | succ fuel =>
      obtain ⟨h0, sel, l, cases, hT, hG, hL, hM, hdE⟩ := Learn_succ_inv hd
      rw [TotalEntropy_eq hci] at hT
      have h0eq : h0 = totalEntropyAt view.rows ci := (Option.some_inj.mp hT).symm
      rw [h0eq, hsel] at hG
      have hseleq : sel = (gainOf view cls m, m) := (Option.some_inj.mp hG).symm
      rw [hdE, hseleq]
      rfl

/-- Witness for C1 at a concrete one-row view. -/
theorem C1_witness :
    ("play" ∈ (GoView.mk ["a", "play"] [["x", "yes"]]).cols
      ∧ ∃ n ∈ (GoView.mk ["a", "play"] [["x", "yes"]]).cols, n ≠ "play" ∧ n ≠ "")
    ∧ ∃ m, m ≠ ""
      ∧ IsFirstMaxGain ⟨["a", "play"], [["x", "yes"]]⟩ "play" m
      ∧ gainFold ⟨["a", "play"], [["x", "yes"]]⟩ "play"
          (totalEntropyAt [["x", "yes"]]
            ((find ["a", "play"] "play").getD 0))
        = some (gainOf ⟨["a", "play"], [["x", "yes"]]⟩ "play" m, m)
      ∧ ∀ fuel d, Learn "play" fuel ⟨["a", "play"], [["x", "yes"]]⟩ = some d →
          d.Column = m :=
  ⟨⟨by decide, by decide⟩,
    C1_selects_first_max_gain ⟨["a", "play"], [["x", "yes"]]⟩ "play"
      (by decide) (by decide)⟩

/-! ## Claim C2 -/

/-- Counterexample to C2 as stated: the view whose only column is the class
column is non-empty and consistent, yet `Learn` does not terminate normally
for any recursion depth — no column is eligible, `maxColumn` stays `""`,
and `Likelihood(view, "")` panics in `find` because no blank column
exists. -/
theorem C2_counterexample :
    (GoView.mk ["play"] [["yes"]]).rows ≠ []
    ∧ Consistent ⟨["play"], [["yes"]]⟩ "play"
    ∧ ∀ fuel, Learn "play" fuel ⟨["play"], [["yes"]]⟩ = none := by
  refine ⟨by simp, ?_, ?_⟩
  · intro ci hci r1 hr1 r2 hr2 hagree
    simp only [List.mem_singleton] at hr1 hr2
    rw [hr1, hr2]
  · intro fuel
    cases fuel with
    | zero => rfl
    | succ fuel =>
      rw [Learn_succ, @TotalEntropy_eq ⟨["play"], [["yes"]]⟩ "play" 0 rfl,
        Option.some_bind]
      rw [gainFold_eq (totalEntropyAt [["yes"]] 0)
        (show find ["play"] "play" = some 0 from rfl)]
      rw [argmaxFold_cons, if_pos (Or.inl rfl)]
      rw [show argmaxFold (fun n => n = "play" ∨ n = "") _ [] ((-1 : ℝ), "")
          = ((-1 : ℝ), "") from rfl]
      rw [Option.some_bind]
      rw [show Likelihood ⟨["play"], [["yes"]]⟩ (((-1 : ℝ), "").2) = none from rfl]
      rfl

/-- Claim C2, amended: for every non-empty consistent view whose class
column is visible (named) and which retains at least one visible non-class
column, `Learn` terminates (with any fuel exceeding the eligible column
count), and it recurses until every partition is class-pure: each Case
whose sub-view has class entropy exactly zero is a leaf holding the class
value found on the sub-view's first row, and every other Case holds the
decision learned from that sub-view with the chosen column dropped. -/
theorem C2_learn_recurses_until_pure (view : GoView) (cls : String)
    (hrows : view.rows ≠ []) (hcons : Consistent view cls)
    (hcls : cls ∈ view.cols) (hclsne : cls ≠ "")
    (hex : ∃ n ∈ view.cols, n ≠ cls ∧ n ≠ "")
    (fuel : Nat) (hfuel : eligCount view cls < fuel) :
    ∃ d ci am, Learn cls fuel view = some d
      ∧ find view.cols cls = some ci
      ∧ find view.cols d.Column = some am
      ∧ List.Forall₂
          (fun dist c =>
            c.Value = dist.Value
            ∧ (totalEntropyAt (selectAt view.rows am dist.Value) ci = 0 →
                c = Case.mk dist.Value
                  (((selectAt view.rows am dist.Value).headD []).getD ci "") none)
            ∧ (totalEntropyAt (selectAt view.rows am dist.Value) ci ≠ 0 →
                c.Class = "" ∧ ∃ d', c.Decide = some d'
                  ∧ Learn cls (fuel - 1)
                      ⟨view.cols.set am "", selectAt view.rows am dist.Value⟩
                    = some d'))
          (likelihoodAt view.rows am) d.Cases := by
  obtain ⟨ci, hci⟩ := find_some_of_mem hcls
  have hex' : ∃ n ∈ view.cols, ¬ (n = cls ∨ n = "") := by
    obtain ⟨n, hn, h1, h2⟩ := hex
    exact ⟨n, hn, by tauto⟩
  obtain ⟨d, hd⟩ := Learn_terminates_aux fuel view cls ci hci hclsne hcons hrows
    hex' hfuel
  cases fuel with
  | zero => exact absurd hfuel (by omega)
  | succ fuel =>
    obtain ⟨h0, sel, l, cases, hT, hG, hL, hM, hdE⟩ := Learn_succ_inv hd
    rw [TotalEntropy_eq hci] at hT
    have h0eq : h0 = totalEntropyAt view.rows ci := (Option.some_inj.mp hT).symm
    obtain ⟨m, hsel, hfmg, hmcols⟩ := gainFold_spec hci hex'
    rw [h0eq, hsel] at hG
    have hseleq : sel = (gainOf view cls m, m) := (Option.some_inj.mp hG).symm
    obtain ⟨am, ham⟩ := find_some_of_mem hmcols
    have hcolm : d.Column = m := by
      rw [hdE, hseleq]
      rfl
    have hl : l = likelihoodAt view.rows am := by
      rw [hseleq] at hL
      rw [show Likelihood view ((gainOf view cls m, m).2) = Likelihood view m
        from rfl, Likelihood_eq ham] at hL
      exact (Option.some_inj.mp hL).symm
    refine ⟨d, ci, am, hd, hci, by rw [hcolm]; exact ham, ?_⟩
    have hall := mapM_option_forall_inv hM
    rw [hl, hseleq] at hall
    have hcases : d.Cases = cases := by
      rw [hdE]
      rfl
    rw [hcases]
    refine hall.imp ?_
    intro dist c hc
    have hinv := learnCase_inv ham hci
      (show learnCase cls (Learn cls fuel) view m dist = some c from hc)
    rcases hinv with ⟨hpure, hceq⟩ | ⟨himp, d', hrec, hceq⟩
    · refine ⟨by rw [hceq]; rfl, fun _ => hceq, fun himp => absurd hpure himp⟩
    · refine ⟨by rw [hceq]; rfl, fun hpure => absurd hpure himp, fun _ => ?_⟩
      refine ⟨by rw [hceq]; rfl, d', by rw [hceq]; rfl, ?_⟩
      simpa using hrec

/-- Witness for the amended C2 at a concrete two-row view. -/
theorem C2_witness :
    ((GoView.mk ["a", "play"] [["x", "yes"], ["y", "no"]]).rows ≠ []
      ∧ Consistent ⟨["a", "play"], [["x", "yes"], ["y", "no"]]⟩ "play"
      ∧ "play" ∈ (GoView.mk ["a", "play"] [["x", "yes"], ["y", "no"]]).cols
      ∧ "play" ≠ ""
      ∧ (∃ n ∈ (GoView.mk ["a", "play"] [["x", "yes"], ["y", "no"]]).cols,
          n ≠ "play" ∧ n ≠ "")
      ∧ eligCount ⟨["a", "play"], [["x", "yes"], ["y", "no"]]⟩ "play" < 2)
    ∧ ∃ d ci am,
        Learn "play" 2 ⟨["a", "play"], [["x", "yes"], ["y", "no"]]⟩ = some d
      ∧ find ["a", "play"] "play" = some ci
      ∧ find ["a", "play"] d.Column = some am
      ∧ List.Forall₂
          (fun dist c =>
            c.Value = dist.Value
            ∧ (totalEntropyAt
                  (selectAt [["x", "yes"], ["y", "no"]] am dist.Value) ci = 0 →
                c = Case.mk dist.Value
                  (((selectAt [["x", "yes"], ["y", "no"]] am dist.Value).headD
                      []).getD ci "") none)
            ∧ (totalEntropyAt
                  (selectAt [["x", "yes"], ["y", "no"]] am dist.Value) ci ≠ 0 →
                c.Class = "" ∧ ∃ d', c.Decide = some d'
                  ∧ Learn "play" (2 - 1)
                      ⟨["a", "play"].set am "",
                        selectAt [["x", "yes"], ["y", "no"]] am dist.Value⟩
                    = some d'))
          (likelihoodAt [["x", "yes"], ["y", "no"]] am) d.Cases := by
  have hcons : Consistent ⟨["a", "play"], [["x", "yes"], ["y", "no"]]⟩ "play" := by
    intro ci hci
    have hci' : (some 1 : Option Nat) = some ci := hci
    have h1 : ci = 1 := (Option.some_inj.mp hci').symm
    subst h1
    decide
  exact ⟨⟨by decide, hcons, by decide, by decide, by decide, by decide⟩,
    C2_learn_recurses_until_pure ⟨["a", "play"], [["x", "yes"], ["y", "no"]]⟩
      "play" (by decide) hcons (by decide) (by decide) (by decide) 2 (by decide)⟩

/-! ## Claim C3 -/

/-- Claim C3 is contradicted by the code: on an empty training view (zero
rows) `Learn` does not fail — it has no empty-dataset guard at all (its Go
signature cannot even return an error) and returns a `Decision` with zero
`Cases`, which the specification's own data model declares invalid.  The
likelihood loop body never runs on an empty view, so no division is reached
and no guard exists. -/
theorem C3_empty_view_returns_zero_case_decision :
    Learn "play" 1 ⟨["a", "play"], []⟩ = some (Decision.node "a" []) := by
  show Learn "play" (0 + 1) ⟨["a", "play"], []⟩ = some (Decision.node "a" [])
  rw [Learn_succ, @TotalEntropy_eq ⟨["a", "play"], []⟩ "play" 1 rfl,
    Option.some_bind]
  rw [gainFold_eq (totalEntropyAt [] 1)
    (show find ["a", "play"] "play" = some 1 from rfl)]
  have ht0 : totalEntropyAt ([] : List (List String)) 1 = 0 := rfl
  have ha0 : averageEntropyAt ([] : List (List String))
      ((find ["a", "play"] "a").getD 0) 1 = 0 := rfl
  rw [argmaxFold_cons, if_neg (by simp), if_pos (by rw [ht0, ha0]; norm_num)]
  rw [argmaxFold_cons, if_pos (Or.inl rfl)]
  rw [show argmaxFold (fun n => n = "play" ∨ n = "") _ []
      (totalEntropyAt [] 1
        - averageEntropyAt [] ((find ["a", "play"] "a").getD 0) 1, "a")
    = (totalEntropyAt [] 1
        - averageEntropyAt [] ((find ["a", "play"] "a").getD 0) 1, "a") from rfl]
  rw [Option.some_bind]
  rw [show Likelihood ⟨["a", "play"], []⟩
      ((totalEntropyAt [] 1
        - averageEntropyAt [] ((find ["a", "play"] "a").getD 0) 1, "a").2)
    = some [] from rfl]
  rw [Option.some_bind]
  rfl

/-! ## Claims C4 and C10: classification -/

theorem decideCases_cons (data : List (List String)) (ix : Nat)
    (value col v cl : String) (dec : Option Decision) (rest : List Case) :
    decideCases data ix value col (.mk v cl dec :: rest)
      = if v = value then
          (if cl ≠ "" then .ok cl
           else match dec with
             | some d => decideD data ix d
             | none => .error .nilDecide)
        else decideCases data ix value col rest := by
  rw [decideCases.eq_def]

theorem decideCases_noRule {data : List (List String)} {ix : Nat}
    {value col : String} :
    ∀ {cs : List Case}, (∀ c ∈ cs, c.Value ≠ value) →
      decideCases data ix value col cs = .error (.noRule col) := by
  intro cs
  induction cs with
  | nil =>
    intro _
    rfl
  | cons c rest ih =>
    intro h
    cases c with
    | mk v cl dec =>
      have hv : v ≠ value := h (Case.mk v cl dec) (by simp)
      rw [decideCases_cons, if_neg hv]
      exact ih (fun c hc => h c (by simp [hc]))

/-- Claim C4: when the row's value in the current Decision's column matches
none of that Decision's Cases, classification fails with the no-rule
("unrecognized category") condition — it never returns a default or guessed
class label.  (The Go code raises this as a panic, modelled as the error
value `DecideError.noRule`.) -/
theorem C4_unmatched_value_fails (d : Decision) (data : List (List String))
    (ix : Nat) (i : Nat)
    (hi : find (data.getD 0 []) d.Column = some i)
    (hnone : ∀ c ∈ d.Cases, c.Value ≠ (data.getD ix []).getD i "") :
    decideD data ix d = .error (.noRule d.Column) := by
  cases d with
  | node col cs =>
    rw [show decideD data ix (Decision.node col cs)
        = (match find (data.getD 0 []) col with
           | none => Except.error (DecideError.colNotFound col)
           | some i => decideCases data ix ((data.getD ix []).getD i "") col cs)
      from rfl]
    rw [show find (data.getD 0 []) col = some i from hi]
    exact decideCases_noRule (fun c hc => hnone c hc)

/-- Witness for C4: a tree with a single case `x` applied to a row carrying
the unseen value `z`. -/
theorem C4_witness :
    (find ([["a"], ["z"]].getD 0 [])
        (Decision.node "a" [Case.mk "x" "yes" none]).Column = some 0
      ∧ ∀ c ∈ (Decision.node "a" [Case.mk "x" "yes" none]).Cases,
          c.Value ≠ ([["a"], ["z"]].getD 1 []).getD 0 "")
    ∧ decideD [["a"], ["z"]] 1 (Decision.node "a" [Case.mk "x" "yes" none])
        = .error (.noRule (Decision.node "a" [Case.mk "x" "yes" none]).Column) :=
  ⟨⟨rfl, by decide⟩,
    C4_unmatched_value_fails (Decision.node "a" [Case.mk "x" "yes" none])
      [["a"], ["z"]] 1 0 rfl (by decide)⟩

/-- Claim C10: classification distinguishes a leaf from a nested decision by
testing whether the matching Case's Class is a non-empty string: for a
matching case with empty Class the scan continues into the Decide pointer,
so a Case with Class `""` and Decide nil ends in the nil-dereference panic
instead of a label; and `FromJSON` accepts such a tree without structural
validation. -/
theorem C10_empty_class_dereferences_decide :
    (∀ (data : List (List String)) (ix : Nat) (value col : String)
        (dec : Option Decision) (rest : List Case),
      decideCases data ix value col (Case.mk value "" dec :: rest)
        = match dec with
          | some d' => decideD data ix d'
          | none => Except.error DecideError.nilDecide)
    ∧ FromJSON (ToJSON (Decision.node "a" [Case.mk "x" "" none]) false)
        = some (Decision.node "a" [Case.mk "x" "" none])
    ∧ decideD [["a"], ["x"]] 1 (Decision.node "a" [Case.mk "x" "" none])
        = Except.error DecideError.nilDecide := by
  refine ⟨?_, rfl, rfl⟩
  intro data ix value col dec rest
  rw [decideCases_cons, if_pos rfl, if_neg (by simp)]

/-! ## Claim C5: likelihood is a sorted probability distribution -/

/-- Claim C5: on every view with at least one row, `Likelihood` of a visible
column returns a list whose probabilities sum exactly to 1 and which is
sorted in non-increasing probability order. -/
theorem C5_likelihood_distribution (view : GoView) (column : String)
    (hrows : view.rows ≠ []) (hcol : column ∈ view.cols) :
    ∃ l, Likelihood view column = some l
      ∧ (l.map (fun d => d.Probability)).sum = 1
      ∧ l.Pairwise probGE := by
  obtain ⟨i, hi⟩ := find_some_of_mem hcol
  refine ⟨likelihoodAt view.rows i, Likelihood_eq hi, ?_, ?_⟩
  · rw [sum_map_likelihoodAt]
    have hone : ∑ v in (colVals view.rows i).toFinset, probOf view.rows i v = 1 := by
      rw [show (fun v => probOf view.rows i v)
          = fun v => (cnt view.rows i v : ℚ) / (view.rows.length : ℚ) from rfl]
      rw [← Finset.sum_div]
      rw [show ∑ v in (colVals view.rows i).toFinset, (cnt view.rows i v : ℚ)
          = ((∑ v in (colVals view.rows i).toFinset, cnt view.rows i v : ℕ) : ℚ)
        by push_cast; rfl]
      rw [sum_cnt_eq_length]
      have hN : view.rows.length ≠ 0 := fun h => hrows (List.length_eq_zero.mp h)
      rw [div_self (by exact_mod_cast hN)]
    exact hone
  · rw [likelihoodAt, likelihoodOrd]
    exact List.sorted_insertionSort probGE _

/-- Witness for C5 on a two-row view. -/
theorem C5_witness :
    ((GoView.mk ["a"] [["x"], ["y"]]).rows ≠ []
      ∧ "a" ∈ (GoView.mk ["a"] [["x"], ["y"]]).cols)
    ∧ ∃ l, Likelihood ⟨["a"], [["x"], ["y"]]⟩ "a" = some l
      ∧ (l.map (fun d => d.Probability)).sum = 1
      ∧ l.Pairwise probGE :=
  ⟨⟨by decide, by decide⟩,
    C5_likelihood_distribution ⟨["a"], [["x"], ["y"]]⟩ "a" (by decide) (by decide)⟩

/-! ## Claim C6: tie order is not deterministic -/

/-- Claim C6 is contradicted by the code: `Likelihood` enumerates the tally
map with Go's randomized map range order and then applies the unstable
`sort.Slice`, so two calls within one run may see different enumeration
orders of the same distinct values; on a view with two equally probable
values the two possible orders produce different result lists (the tied
entries swap), so the returned order is not a function of the view at
all. -/
theorem C6_tie_order_not_deterministic :
    ["x", "y"].Perm (colVals [["x"], ["y"]] 0).dedup
    ∧ ["y", "x"].Perm (colVals [["x"], ["y"]] 0).dedup
    ∧ likelihoodOrd [["x"], ["y"]] 0 ["x", "y"]
        ≠ likelihoodOrd [["x"], ["y"]] 0 ["y", "x"] := by
  refine ⟨by decide, by decide, ?_⟩
  have h1 : likelihoodOrd [["x"], ["y"]] 0 ["x", "y"]
      = [⟨"x", (1 : ℚ)/2⟩, ⟨"y", (1 : ℚ)/2⟩] := by
    rw [likelihoodOrd]
    norm_num [List.insertionSort, List.orderedInsert, probGE,
      show cnt [["x"], ["y"]] 0 "x" = 1 from rfl,
      show cnt [["x"], ["y"]] 0 "y" = 1 from rfl]
  have h2 : likelihoodOrd [["x"], ["y"]] 0 ["y", "x"]
      = [⟨"y", (1 : ℚ)/2⟩, ⟨"x", (1 : ℚ)/2⟩] := by
    rw [likelihoodOrd]
    norm_num [List.insertionSort, List.orderedInsert, probGE,
      show cnt [["x"], ["y"]] 0 "x" = 1 from rfl,
      show cnt [["x"], ["y"]] 0 "y" = 1 from rfl]
  rw [h1, h2]
  intro heq
  rw [List.cons.injEq] at heq
  have hxy : ("x" : String) = "y" := congrArg Distinct.Value heq.1
  exact absurd hxy (by decide)

/-! ## Claim C7: dropping an unrelated column -/

/-- Claim C7: for every view, attribute column and class column (both
addressed by name, hence visible), and every third column distinct from
both, dropping the third column does not change `AverageEntropy`. -/
theorem C7_average_entropy_drop_invariant (view : GoView)
    (attrib cls c : String) (hc : c ∈ view.cols)
    (hca : c ≠ attrib) (hcc : c ≠ cls)
    (hattr : attrib ≠ "") (hclsne : cls ≠ "") :
    (view.Drop c).bind (fun v2 => AverageEntropy v2 attrib cls)
      = AverageEntropy view attrib cls := by
  obtain ⟨j, hj⟩ := find_some_of_mem hc
  rw [Drop_eq hj, Option.some_bind]
  have hgd : view.cols.getD j "" = c := find_getD hj
  have hfcls : find (view.cols.set j "") cls = find view.cols cls :=
    find_set_of_ne (fun h => hclsne h.symm) (by rw [hgd]; exact hcc)
  have hfattr : find (view.cols.set j "") attrib = find view.cols attrib :=
    find_set_of_ne (fun h => hattr h.symm) (by rw [hgd]; exact hca)
  rw [AverageEntropy, AverageEntropy]
  rw [show (GoView.mk (view.cols.set j "") view.rows).cols
      = view.cols.set j "" from rfl]
  rw [hfcls, hfattr]

/-- Witness for C7 on a three-column view. -/
theorem C7_witness :
    ("b" ∈ (GoView.mk ["a", "b", "play"] [["x", "u", "yes"]]).cols
      ∧ "b" ≠ "a" ∧ "b" ≠ "play" ∧ "a" ≠ "" ∧ "play" ≠ "")
    ∧ ((GoView.mk ["a", "b", "play"] [["x", "u", "yes"]]).Drop "b").bind
        (fun v2 => AverageEntropy v2 "a" "play")
      = AverageEntropy ⟨["a", "b", "play"], [["x", "u", "yes"]]⟩ "a" "play" :=
  ⟨⟨by decide, by decide, by decide, by decide, by decide⟩,
    C7_average_entropy_drop_invariant ⟨["a", "b", "play"], [["x", "u", "yes"]]⟩
      "a" "play" "b" (by decide) (by decide) (by decide) (by decide) (by decide)⟩

/-! ## Claim C8: serialization round-trip -/

theorem encodeD_node (col : String) (cs : List Case) :
    encodeD (.node col cs)
      = .obj [("Column", .str col), ("Cases", encodeCasesTop cs)] := by
  rw [encodeD.eq_def]

theorem encodeCasesTop_nil : encodeCasesTop [] = Json.null := by
  rw [encodeCasesTop.eq_def]

theorem encodeCasesTop_cons (c : Case) (rest : List Case) :
    encodeCasesTop (c :: rest) = Json.arr (encodeCase c :: encodeCaseList rest) := by
  rw [encodeCasesTop.eq_def]

theorem encodeCaseList_cons (c : Case) (rest : List Case) :
    encodeCaseList (c :: rest) = encodeCase c :: encodeCaseList rest := by
  rw [encodeCaseList.eq_def]

theorem encodeCase_mk (v cl : String) (dec : Option Decision) :
    encodeCase (.mk v cl dec)
      = .obj [("Value", .str v), ("Class", .str cl), ("Decide", encodeOptD dec)] := by
  rw [encodeCase.eq_def]

theorem encodeOptD_none : encodeOptD none = Json.null := by
  rw [encodeOptD.eq_def]

theorem encodeOptD_some (d : Decision) : encodeOptD (some d) = encodeD d := by
  rw [encodeOptD.eq_def]

theorem decodeD_obj (fields : List (String × Json)) :
    decodeD (.obj fields) = decodeNodeFields fields "" (some []) := by
  rw [decodeD.eq_def]

theorem decodeNodeFields_nil (col : String) (cs : Option (List Case)) :
    decodeNodeFields [] col cs = cs.bind (fun cs => some (.node col cs)) := by
  rw [decodeNodeFields.eq_def]

theorem decodeNodeFields_str (k s : String) (rest : List (String × Json))
    (col : String) (cs : Option (List Case)) :
    decodeNodeFields ((k, Json.str s) :: rest) col cs
      = (if k = "Column" then decodeNodeFields rest s cs
        else if k = "Cases" then none
        else decodeNodeFields rest col cs) := by
  rw [decodeNodeFields.eq_def]

theorem decodeNodeFields_null (k : String) (rest : List (String × Json))
    (col : String) (cs : Option (List Case)) :
    decodeNodeFields ((k, Json.null) :: rest) col cs
      = decodeNodeFields rest col cs := by
  rw [decodeNodeFields.eq_def]

theorem decodeNodeFields_arr (k : String) (xs : List Json)
    (rest : List (String × Json)) (col : String) (cs : Option (List Case)) :
    decodeNodeFields ((k, Json.arr xs) :: rest) col cs
      = (if k = "Column" then none
        else if k = "Cases" then decodeNodeFields rest col (decodeCaseList xs)
        else decodeNodeFields rest col cs) := by
  rw [decodeNodeFields.eq_def]

theorem decodeCaseList_cons (x : Json) (rest : List Json) :
    decodeCaseList (x :: rest)
      = (decodeCase x).bind (fun c =>
          (decodeCaseList rest).bind (fun cs => some (c :: cs))) := by
  rw [decodeCaseList.eq_def]

theorem decodeCase_obj (fields : List (String × Json)) :
    decodeCase (.obj fields) = decodeCaseFields fields "" "" (some none) := by
  rw [decodeCase.eq_def]

theorem decodeCaseFields_nil (v cl : String) (dec : Option (Option Decision)) :
    decodeCaseFields [] v cl dec = dec.bind (fun dec => some (.mk v cl dec)) := by
  rw [decodeCaseFields.eq_def]

theorem decodeCaseFields_str (k s : String) (rest : List (String × Json))
    (v cl : String) (dec : Option (Option Decision)) :
    decodeCaseFields ((k, Json.str s) :: rest) v cl dec
      = (if k = "Value" then decodeCaseFields rest s cl dec
        else if k = "Class" then decodeCaseFields rest v s dec
        else if k = "Decide" then
          decodeCaseFields rest v cl
            ((decodeD (Json.str s)).bind (fun d => some (some d)))
        else decodeCaseFields rest v cl dec) := by
  rw [decodeCaseFields.eq_def]

theorem decodeCaseFields_null (k : String) (rest : List (String × Json))
    (v cl : String) (dec : Option (Option Decision)) :
    decodeCaseFields ((k, Json.null) :: rest) v cl dec
      = (if k = "Decide" then decodeCaseFields rest v cl (some none)
        else decodeCaseFields rest v cl dec) := by
  rw [decodeCaseFields.eq_def]

theorem decodeCaseFields_obj (k : String) (fs : List (String × Json))
    (rest : List (String × Json)) (v cl : String)
    (dec : Option (Option Decision)) :
    decodeCaseFields ((k, Json.obj fs) :: rest) v cl dec
      = (if k = "Value" ∨ k = "Class" then none
        else if k = "Decide" then
          decodeCaseFields rest v cl
            ((decodeD (Json.obj fs)).bind (fun d => some (some d)))
        else decodeCaseFields rest v cl dec) := by
  rw [decodeCaseFields.eq_def]

theorem decode_encode_all :
    ∀ n : Nat,
      (∀ d : Decision, sizeOf d ≤ n → decodeD (encodeD d) = some d)
      ∧ (∀ cs : List Case, sizeOf cs ≤ n →
          decodeCaseList (encodeCaseList cs) = some cs)
      ∧ (∀ c : Case, sizeOf c ≤ n → decodeCase (encodeCase c) = some c) := by
  intro n
  induction n using Nat.strong_induction_on with
  | _ n ih =>
    refine ⟨?_, ?_, ?_⟩
    · intro d hd
      cases d with
      | node col cs =>
        have hszd : sizeOf cs < sizeOf (Decision.node col cs) := by
          simp only [Decision.node.sizeOf_spec]
          omega
        rw [encodeD_node, decodeD_obj]
        cases cs with
        | nil =>
          rw [encodeCasesTop_nil, decodeNodeFields_str, if_pos rfl,
            decodeNodeFields_null, decodeNodeFields_nil]
          rfl
        | cons c rest =>
          have hcs : decodeCaseList (encodeCaseList (c :: rest)) = some (c :: rest) :=
            (ih (sizeOf (c :: rest)) (by omega)).2.1 (c :: rest) (le_refl _)
          rw [encodeCasesTop_cons, decodeNodeFields_str, if_pos rfl,
            decodeNodeFields_arr, if_neg (by decide), if_pos rfl,
            ← encodeCaseList_cons, hcs, decodeNodeFields_nil]
          rfl
    · intro cs hcs
      cases cs with
      | nil => rfl
      | cons c rest =>
        have hszc : sizeOf c < sizeOf (c :: rest) := by
          simp only [List.cons.sizeOf_spec]
          omega
        have hszr : sizeOf rest < sizeOf (c :: rest) := by
          simp only [List.cons.sizeOf_spec]
          omega
        have hc : decodeCase (encodeCase c) = some c :=
          (ih (sizeOf c) (by omega)).2.2 c (le_refl _)
        have hr : decodeCaseList (encodeCaseList rest) = some rest :=
          (ih (sizeOf rest) (by omega)).2.1 rest (le_refl _)
        rw [encodeCaseList_cons, decodeCaseList_cons, hc, Option.some_bind, hr,
          Option.some_bind]
    · intro c hc
      cases c with
      | mk v cl dec =>
        rw [encodeCase_mk, decodeCase_obj, decodeCaseFields_str, if_pos rfl,
          decodeCaseFields_str, if_neg (by decide), if_pos rfl]
        cases dec with
        | none =>
          rw [encodeOptD_none, decodeCaseFields_null, if_pos rfl,
            decodeCaseFields_nil]
          rfl
        | some d2 =>
          have hszd : sizeOf d2 < sizeOf (Case.mk v cl (some d2)) := by
            simp only [Case.mk.sizeOf_spec, Option.some.sizeOf_spec]
            omega
          have hd2 : decodeD (encodeD d2) = some d2 :=
            (ih (sizeOf d2) (by omega)).1 d2 (le_refl _)
          cases d2 with
          | node col2 cs2 =>
            rw [encodeD_node] at hd2
            rw [encodeOptD_some, encodeD_node, decodeCaseFields_obj,
              if_neg (by decide), if_pos rfl, hd2, Option.some_bind,
              decodeCaseFields_nil]
            rfl

/-- The round-trip at top level. -/
theorem decode_encode (d : Decision) : decodeD (encodeD d) = some d :=
  (decode_encode_all (sizeOf d)).1 d (le_refl _)

/-- Claim C8: serializing any decision tree with `ToJSON` and deserializing
with `FromJSON` reproduces the very same tree — same column choice at every
decision, same case ordering, values, and leaf labels — and the
round-tripped tree classifies every row identically.  (The byte encoding
produced by Go's `encoding/json` is external to the core; serialization is
modelled at the JSON structure level, where the indent flag changes
nothing.) -/
theorem C8_roundtrip (d : Decision) :
    (∀ indent, FromJSON (ToJSON d indent) = some d)
    ∧ ∀ (data : List (List String)) (ix : Nat),
        (FromJSON (ToJSON d true)).map (fun d2 => decideD data ix d2)
          = some (decideD data ix d) := by
  have h : ∀ indent, FromJSON (ToJSON d indent) = some d := by
    intro indent
    cases indent with
    | false => exact decode_encode d
    | true => exact decode_encode d
  refine ⟨h, ?_⟩
  intro data ix
  rw [h true]
  rfl

/-! ## Claim C9: the cursor is shared, not per-view -/

theorem chainNextF_base (fuel : Nat) (data : List (List String)) (s : Nat) :
    chainNextF fuel (Chain.base data) s
      = (let s1 := if s = 0 then 1 else s
         if s1 = data.length then (none, s1)
         else (some (data.getD s1 []), s1 + 1)) := by
  rw [chainNextF.eq_def]
  cases fuel <;> rfl

theorem chainNextF_drop (fuel : Nat) (p : Chain) (idx : Nat) (s : Nat) :
    chainNextF (fuel + 1) (Chain.drop p idx) s = chainNextF fuel p s := by
  rw [chainNextF.eq_def]

theorem chainNextF_sel (fuel : Nat) (p : Chain) (col : Nat) (val : String)
    (s : Nat) :
    chainNextF (fuel + 1) (Chain.sel p col val) s
      = (match chainNextF fuel p s with
        | (none, s2) => (none, s2)
        | (some row, s2) =>
          if row.getD col "" == val then (some row, s2)
          else chainNextF fuel (.sel p col val) s2) := by
  rw [chainNextF.eq_def]

theorem chainNextF_zero_drop (p : Chain) (idx : Nat) (s : Nat) :
    chainNextF 0 (Chain.drop p idx) s = (none, s) := by
  rw [chainNextF.eq_def]

theorem chainNextF_zero_sel (p : Chain) (col : Nat) (val : String) (s : Nat) :
    chainNextF 0 (Chain.sel p col val) s = (none, s) := by
  rw [chainNextF.eq_def]

theorem chainFirst_eq_one : ∀ (c : Chain) (s : Nat), chainFirst c s = 1 := by
  intro c
  induction c with
  | base data => intro s; rfl
  | sel p col val ih => intro s; exact ih s
  | drop p idx ih => intro s; exact ih s

theorem chainNextF_mono :
    ∀ (fuel : Nat) (c : Chain) (s : Nat), s ≤ (chainNextF fuel c s).2 := by
  intro fuel
  induction fuel with
  | zero =>
    intro c s
    cases c with
    | base data =>
      rw [chainNextF_base]
      dsimp only
      split_ifs <;> dsimp only <;> omega
    | sel p col val =>
      rw [chainNextF_zero_sel]
    | drop p idx =>
      rw [chainNextF_zero_drop]
  | succ fuel ih =>
    intro c s
    cases c with
    | base data =>
      rw [chainNextF_base]
      dsimp only
      split_ifs <;> dsimp only <;> omega
    | drop p idx =>
      rw [chainNextF_drop]
      exact ih p s
    | sel p col val =>
      rw [chainNextF_sel]
      cases hres : chainNextF fuel p s with
      | mk r s2 =>
        have hp : s ≤ s2 := by
          have h := ih p s
          rw [hres] at h
          exact h
        cases r with
        | none => exact hp
        | some row =>
          show s ≤ (if row.getD col "" == val then (some row, s2)
            else chainNextF fuel (Chain.sel p col val) s2).2
          by_cases hm : (row.getD col "" == val) = true
          · rw [if_pos hm]
            exact hp
          · rw [if_neg hm]
            exact le_trans hp (ih (Chain.sel p col val) s2)

/-- Counterexample to C9 as stated: over the base data (header plus rows
`r1`, `r2`), compose the fresh filtered view selecting column 0 equal to
`r1` and reset it; advancing it moves the shared cursor away from the reset
position, and the row the parent then yields differs from the row it would
have yielded without the derived view's advance — the derived view does not
own a cursor. -/
theorem C9_counterexample :
    (chainNextF 9 (Chain.sel (Chain.base [["h"], ["r1"], ["r2"]]) 0 "r1")
        (chainFirst (Chain.sel (Chain.base [["h"], ["r1"], ["r2"]]) 0 "r1") 0)).2
      ≠ chainFirst (Chain.base [["h"], ["r1"], ["r2"]]) 0
    ∧ chainNextF 9 (Chain.base [["h"], ["r1"], ["r2"]])
        ((chainNextF 9 (Chain.sel (Chain.base [["h"], ["r1"], ["r2"]]) 0 "r1")
          (chainFirst (Chain.sel (Chain.base [["h"], ["r1"], ["r2"]]) 0 "r1") 0)).2)
      ≠ chainNextF 9 (Chain.base [["h"], ["r1"], ["r2"]])
          (chainFirst (Chain.base [["h"], ["r1"], ["r2"]]) 0) := by
  refine ⟨by decide, by decide⟩

/-- Claim C9, amended: composing a fresh `Select` or `Drop` view does not
give the reader its own cursor — `First` and `Next` delegate to the parent,
so every view over one base shares the single base cursor: `First` through
any chain resets that shared cursor to just before the first data row, and
`Next` through any chain only ever advances it.  A reader obtains a fresh
pass by calling `First` (as `Likelihood` does), not by composing views. -/
theorem C9_amended_shared_cursor :
    (∀ (p : Chain) (col : Nat) (val : String) (s : Nat),
        chainFirst (Chain.sel p col val) s = chainFirst p s)
    ∧ (∀ (p : Chain) (idx : Nat) (s : Nat),
        chainFirst (Chain.drop p idx) s = chainFirst p s)
    ∧ (∀ (c : Chain) (s : Nat), chainFirst c s = 1)
    ∧ (∀ (fuel : Nat) (c : Chain) (s : Nat), s ≤ (chainNextF fuel c s).2) :=
  ⟨fun _ _ _ _ => rfl, fun _ _ _ => rfl, chainFirst_eq_one, chainNextF_mono⟩

end ID3
